import Mathlib

/-!
Verification of the position and capture engine of the kifudojo repository.

The TypeScript source keeps a sparse board as a JavaScript object mapping
string keys of the shape x,y to a stone color.  We embed such an object as an
association list over coordinate pairs, with insertion-order-faithful update
and delete operations.  The group search in the source is an unbounded
while-loop over an explicit queue; here it is written with a fuel parameter,
and the fuel chosen by the caller is proved sufficient for the queue to drain,
so the function computes exactly what the loop in the source computes.
-/

/-- Stone colors, from src/types.ts. -/
inductive StoneColor where
  | black
  | white
deriving DecidableEq, Repr

/-- A board coordinate: the integer pair encoded in the source's string key. -/
abbrev Coord := Nat × Nat

/-- Sparse board state: the entries of the JavaScript object, in insertion
order, from src/types.ts (BoardState). -/
abbrev BoardState := List (Coord × StoneColor)

/-- Reading a key of the object: the first (and, for genuine objects, only)
entry with that key. -/
def lookup : BoardState → Coord → Option StoneColor
  | [], _ => none
  | e :: rest, k => if e.1 = k then some e.2 else lookup rest k

/-- Writing a key of the object: overwrite in place if present, else append. -/
def setCell : BoardState → Coord → StoneColor → BoardState
  | [], k, c => [(k, c)]
  | e :: rest, k, c => if e.1 = k then (k, c) :: rest else e :: setCell rest k c

/-- Deleting a key of the object. -/
def delCell : BoardState → Coord → BoardState
  | [], _ => []
  | e :: rest, k => if e.1 = k then delCell rest k else e :: delCell rest k

/-- The keys of the board object. -/
def keys (b : BoardState) : List Coord := b.map Prod.fst

/-- A genuine JavaScript object has no duplicate keys. -/
def keysNodup (b : BoardState) : Prop := (keys b).Nodup

/-- Every stone of the board lies inside the size-by-size grid. -/
def boardInBounds (b : BoardState) (size : Nat) : Prop :=
  ∀ e ∈ b, e.1.1 < size ∧ e.1.2 < size

/-- getNeighbors from src/components/GoBoard.tsx lines 244-251: the
4-directional neighbors clipped to the board. -/
def getNeighbors (x y size : Nat) : List Coord :=
  (if 0 < x then [(x - 1, y)] else []) ++
  (if x < size - 1 then [(x + 1, y)] else []) ++
  (if 0 < y then [(x, y - 1)] else []) ++
  (if y < size - 1 then [(x, y + 1)] else [])

/-- One neighbor inspection of the breadth-first search of getGroup: if the
neighbor holds the searched color and is unvisited, it is added to the visited
set, pushed on the group and pushed on the queue. -/
def visitStep (board : BoardState) (color : StoneColor) :
    List Coord × List Coord × List Coord → Coord →
    List Coord × List Coord × List Coord
  | (vis, grp, q), n =>
    if lookup board n = some color ∧ n ∉ vis then
      (n :: vis, grp ++ [n], q ++ [n])
    else (vis, grp, q)

/-- The while-loop of getGroup (src/components/GoBoard.tsx lines 262-272),
with an explicit fuel in place of the unbounded loop.  The arguments after the
fuel are the queue, the visited set and the group list. -/
def bfsAux (board : BoardState) (color : StoneColor) (size : Nat) :
    Nat → List Coord → List Coord → List Coord → List Coord
  | 0, _, _, group => group
  | _ + 1, [], _, group => group
  | fuel + 1, c :: rest, visited, group =>
    let t := (getNeighbors c.1 c.2 size).foldl (visitStep board color)
      (visited, group, rest)
    bfsAux board color size fuel t.2.2 t.1 t.2.1

/-- getGroup from src/components/GoBoard.tsx lines 253-274.  Fuel
board.length + 1 is sufficient: every enqueue moves a distinct key of the
board into the visited set, so the loop runs at most board.length + 1 times. -/
def getGroup (board : BoardState) (startX startY : Nat) (size : Nat) :
    Option (List Coord) :=
  match lookup board (startX, startY) with
  | none => none
  | some color =>
    some (bfsAux board color size (board.length + 1)
      [(startX, startY)] [(startX, startY)] [(startX, startY)])

/-- Adding an element to a JavaScript Set: kept only if not already present. -/
def setAdd (s : List Coord) (k : Coord) : List Coord :=
  if k ∈ s then s else s ++ [k]

/-- countLiberties from src/components/GoBoard.tsx lines 276-287: the size of
the set of empty cells adjacent to any member of the group. -/
def countLiberties (board : BoardState) (group : List Coord) (size : Nat) :
    Nat :=
  (group.foldl (fun acc key =>
    (getNeighbors key.1 key.2 size).foldl (fun acc2 n =>
      if lookup board n = none then setAdd acc2 n else acc2) acc) []).length

/-- The opposing color. -/
def opponentOf : StoneColor → StoneColor
  | .black => .white
  | .white => .black

/-- A recorded move, from src/types.ts. -/
structure Move where
  x : Nat
  y : Nat
  color : StoneColor
  captures : Nat
deriving DecidableEq, Repr

/-- Cumulative stones captured by each color, from src/types.ts. -/
structure CaptureTally where
  black : Nat
  white : Nat
deriving DecidableEq, Repr

/-- Add captured stones to the tally of the given color. -/
def addT (t : CaptureTally) (c : StoneColor) (n : Nat) : CaptureTally :=
  match c with
  | .black => { t with black := t.black + n }
  | .white => { t with white := t.white + n }

/-- The recorder state owned by the GameLog component:
board, moves, captures and turn. -/
structure RecorderState where
  board : BoardState
  moves : List Move
  captures : CaptureTally
  turn : StoneColor
deriving DecidableEq, Repr

/-- The error taxonomy of the spec for the three rejected-move exits of the
source: the occupied-cell early return, the suicide early return, and the
out-of-bounds guard of the click handler. -/
inductive MoveError where
  | occupiedCell
  | suicideMove
  | outOfBounds
deriving DecidableEq, Repr

/-- One neighbor of the capture loop of handleBoardClick
(src/components/GoBoard.tsx lines 334-344): an adjacent opponent group with
zero liberties is deleted stone by stone, incrementing the captured counter. -/
def captureStep (size : Nat) (opp : StoneColor) (acc : BoardState × Nat)
    (n : Coord) : BoardState × Nat :=
  if lookup acc.1 n = some opp then
    match getGroup acc.1 n.1 n.2 size with
    | some g =>
      if countLiberties acc.1 g size = 0 then
        g.foldl (fun a k => (delCell a.1 k, a.2 + 1)) acc
      else acc
    | none => acc
  else acc

/-- The suicide test of handleBoardClick (src/components/GoBoard.tsx lines
347-348): the placed stone's own group has zero liberties after captures. -/
def suicideAfter (size : Nat) (b : BoardState) (x y : Nat) : Bool :=
  match getGroup b x y size with
  | some g => countLiberties b g size == 0
  | none => false

/-- handleBoardClick of the GameLog recorder (src/components/GoBoard.tsx lines
320-365).  The three early returns of the source are the three error values;
the success value carries the four state updates the source performs. -/
def handleBoardClick (size : Nat) (s : RecorderState) (x y : Nat) :
    Except MoveError RecorderState :=
  if lookup s.board (x, y) ≠ none then .error .occupiedCell
  else
    let b0 := setCell s.board (x, y) s.turn
    let r := (getNeighbors x y size).foldl
      (captureStep size (opponentOf s.turn)) (b0, 0)
    if suicideAfter size r.1 x y then .error .suicideMove
    else .ok {
      board := r.1
      moves := s.moves ++ [⟨x, y, s.turn, r.2⟩]
      captures := if 0 < r.2 then addT s.captures s.turn r.2 else s.captures
      turn := opponentOf s.turn }

/-- The caller-visible state after a click: React state is unchanged when
handleBoardClick takes an early return. -/
def applyClick (size : Nat) (s : RecorderState) (x y : Nat) : RecorderState :=
  match handleBoardClick size s x y with
  | .ok s' => s'
  | .error _ => s

/-- The bounds guard of GoBoard's click handler (src/components/GoBoard.tsx
lines 25-40): a click whose grid coordinate falls outside the board never
reaches the recorder. -/
def dispatchClick (size : Nat) (s : RecorderState) (xGrid yGrid : Int) :
    Except MoveError RecorderState :=
  if 0 ≤ xGrid ∧ xGrid < size ∧ 0 ≤ yGrid ∧ yGrid < size then
    handleBoardClick size s xGrid.toNat yGrid.toNat
  else .error .outOfBounds

/-- The caller-visible state after a raw click. -/
def dispatchState (size : Nat) (s : RecorderState) (xGrid yGrid : Int) :
    RecorderState :=
  match dispatchClick size s xGrid yGrid with
  | .ok s' => s'
  | .error _ => s

/-- One neighbor of the capture loop of replayGame
(src/components/GoBoard.tsx lines 400-408): an adjacent opponent group with
zero liberties is deleted and its size credited to the mover's tally. -/
def replayCap (size : Nat) (color : StoneColor)
    (a : BoardState × CaptureTally) (n : Coord) : BoardState × CaptureTally :=
  if lookup a.1 n = some (opponentOf color) then
    match getGroup a.1 n.1 n.2 size with
    | some g =>
      if countLiberties a.1 g size = 0 then
        (g.foldl (fun bb k => delCell bb k) a.1, addT a.2 color g.length)
      else a
    | none => a
  else a

/-- One move of replayGame: write the stone unconditionally, then run the
capture loop over the neighbors. -/
def replayStep (size : Nat) (acc : BoardState × CaptureTally) (m : Move) :
    BoardState × CaptureTally :=
  (getNeighbors m.x m.y size).foldl (replayCap size m.color)
    (setCell acc.1 (m.x, m.y) m.color, acc.2)

/-- replayGame from src/components/GoBoard.tsx lines 389-411: fold the moves
over the empty board and the zero tally. -/
def replayGame (moveList : List Move) (size : Nat) :
    BoardState × CaptureTally :=
  moveList.foldl (replayStep size) ([], ⟨0, 0⟩)

/-- undoLastMove from src/components/GoBoard.tsx lines 367-379: drop the last
move and recompute board, captures and turn from the remaining moves. -/
def undoLastMove (size : Nat) (s : RecorderState) : RecorderState :=
  if s.moves = [] then s
  else
    let newMoves := s.moves.dropLast
    let r := replayGame newMoves size
    { board := r.1
      moves := newMoves
      captures := r.2
      turn := if newMoves.length % 2 = 0 then .black else .white }

/-- The initial recorder state: empty board, no moves, zero tally, Black to
play. -/
def initialState : RecorderState := ⟨[], [], ⟨0, 0⟩, .black⟩

/-- Fold the live move applier over a sequence of clicks, failing as soon as
one click is rejected. -/
def applyClicks (size : Nat) : RecorderState → List Coord →
    Option RecorderState
  | s, [] => some s
  | s, c :: cs =>
    match handleBoardClick size s c.1 c.2 with
    | .ok s' => applyClicks size s' cs
    | .error _ => none

/-- Sum of each move's captured count, grouped by the mover's color. -/
def tallyOfMoves (ms : List Move) : CaptureTally :=
  ms.foldl (fun t m => addT t m.color m.captures) ⟨0, 0⟩

/-- The three classification lists of the drill check, from src/App.tsx. -/
structure DiffResult where
  correct : List Coord
  missing : List Coord
  extra : List Coord
deriving DecidableEq, Repr

/-- checkDrill from src/App.tsx lines 148-177: each target entry is correct or
missing according to the actual board; each actual key absent from the target
or holding a different color is extra. -/
def checkDrill (target actual : BoardState) : DiffResult :=
  let cm := target.foldl (fun (acc : List Coord × List Coord) e =>
    if lookup actual e.1 = some e.2 then (acc.1 ++ [e.1], acc.2)
    else (acc.1, acc.2 ++ [e.1])) ([], [])
  let ex := actual.foldl (fun (acc : List Coord) e =>
    match lookup target e.1 with
    | none => acc ++ [e.1]
    | some _ =>
      if lookup actual e.1 ≠ lookup target e.1 then acc ++ [e.1] else acc) []
  ⟨cm.1, cm.2, ex⟩

/-! ### Derived notions used by the verification -/

/-- One step of same-color connectivity: d is a clipped 4-neighbor of c and
holds the given color. -/
def canStep (b : BoardState) (size : Nat) (color : StoneColor)
    (c d : Coord) : Prop :=
  d ∈ getNeighbors c.1 c.2 size ∧ lookup b d = some color

/-- Same-color connectivity: the reflexive-transitive closure of canStep. -/
def reaches (b : BoardState) (size : Nat) (color : StoneColor) :
    Coord → Coord → Prop :=
  Relation.ReflTransGen (canStep b size color)

/-- The keys of the board holding the color and not yet visited; the measure
that shrinks at every enqueue of the group search. -/
def cand (b : BoardState) (color : StoneColor) (vis : List Coord) :
    Finset Coord :=
  (keys b).toFinset.filter (fun k => lookup b k = some color ∧ k ∉ vis)

/-- Delete a list of keys from the board, as the forEach-delete loops do. -/
def delList (b : BoardState) (g : List Coord) : BoardState := g.foldl delCell b

/-- The set of liberties of a set of coordinates: empty cells adjacent to at
least one member. -/
def libFinset (b : BoardState) (g : Finset Coord) (size : Nat) :
    Finset Coord :=
  (g.biUnion fun m => (getNeighbors m.1 m.2 size).toFinset).filter
    (fun a => lookup b a = none)

/-- Invariant of the capture loop: the current board agrees with the
post-placement board except on cells of opponent color whose whole connected
component has been deleted, and only zero-liberty components get deleted. -/
def CapInv (size : Nat) (opp : StoneColor) (P B : BoardState) : Prop :=
  ∀ q : Coord, lookup B q = lookup P q ∨
    (lookup B q = none ∧ lookup P q = some opp ∧
     (∀ r, reaches P size opp q r → lookup B r = none) ∧
     (∀ g, getGroup P q.1 q.2 size = some g → countLiberties P g size = 0))

/-- The recorder state is faithfully reproduced by the replay engine. -/
def Replays (size : Nat) (s : RecorderState) : Prop :=
  replayGame s.moves size = (s.board, s.captures) ∧
  tallyOfMoves s.moves = s.captures

/-! ### Lemmas about the board primitives -/

theorem lookup_setCell (b : BoardState) (k : Coord) (c : StoneColor)
    (q : Coord) :
    lookup (setCell b k c) q = if k = q then some c else lookup b q := by
  induction b with
  | nil => simp [setCell, lookup]
  | cons e rest ih =>
    by_cases h : e.1 = k
    · simp only [setCell, if_pos h, lookup]
      by_cases hq : k = q
      · simp [hq]
      · simp only [if_neg hq]
        rw [if_neg (fun he : e.1 = q => hq (h.symm.trans he))]
    · simp only [setCell, if_neg h, lookup, ih]
      by_cases he : e.1 = q
      · simp only [if_pos he]
        rw [if_neg (fun hk : k = q => h (he.trans hk.symm))]
      · simp only [if_neg he]

theorem lookup_delCell (b : BoardState) (k : Coord) (q : Coord) :
    lookup (delCell b k) q = if q = k then none else lookup b q := by
  induction b with
  | nil => simp [delCell, lookup]
  | cons e rest ih =>
    by_cases h : e.1 = k
    · simp only [delCell, if_pos h, ih, lookup]
      by_cases hq : q = k
      · simp [hq]
      · simp only [if_neg hq]
        rw [if_neg (fun he : e.1 = q => hq (he.symm.trans h))]
    · simp only [delCell, if_neg h, lookup, ih]
      by_cases he : e.1 = q
      · simp only [if_pos he]
        rw [if_neg (fun hq : q = k => h (he.trans hq))]
      · simp only [if_neg he]

theorem mem_keys_of_lookup {b : BoardState} {k : Coord} {c : StoneColor}
    (h : lookup b k = some c) : k ∈ keys b := by
  induction b with
  | nil => simp [lookup] at h
  | cons e rest ih =>
    simp only [lookup] at h
    by_cases he : e.1 = k
    · simp [keys, he.symm]
    · rw [if_neg he] at h
      exact List.mem_cons_of_mem _ (ih h)

theorem lookup_eq_none_of_not_mem_keys {b : BoardState} {k : Coord}
    (h : k ∉ keys b) : lookup b k = none := by
  cases hl : lookup b k with
  | none => rfl
  | some c => exact absurd (mem_keys_of_lookup hl) h

theorem keys_setCell (b : BoardState) (k : Coord) (c : StoneColor) :
    keys (setCell b k c) = if k ∈ keys b then keys b else keys b ++ [k] := by
  induction b with
  | nil => simp [setCell, keys]
  | cons e rest ih =>
    by_cases h : e.1 = k
    · simp [setCell, if_pos h, keys, h]
    · simp only [setCell, if_neg h, keys, List.map_cons] at ih ⊢
      by_cases hk : k ∈ List.map Prod.fst rest
      · rw [if_pos hk] at ih
        rw [if_pos (by simp [hk]), ih]
      · rw [if_neg hk] at ih
        have : k ∉ e.1 :: List.map Prod.fst rest := by
          simp [hk]
          exact fun he => h he.symm
        rw [if_neg this, ih]
        simp

theorem keysNodup_setCell {b : BoardState} (hb : keysNodup b) (k : Coord)
    (c : StoneColor) : keysNodup (setCell b k c) := by
  unfold keysNodup at *
  rw [keys_setCell]
  by_cases h : k ∈ keys b
  · rwa [if_pos h]
  · rw [if_neg h]
    simpa [List.nodup_append] using ⟨hb, h⟩

theorem keys_delCell_sublist (b : BoardState) (k : Coord) :
    (keys (delCell b k)).Sublist (keys b) := by
  induction b with
  | nil => simp [delCell]
  | cons e rest ih =>
    by_cases h : e.1 = k
    · simp only [delCell, if_pos h, keys, List.map_cons]
      exact ih.trans (List.sublist_cons_self _ _)
    · simp only [delCell, if_neg h, keys, List.map_cons]
      exact ih.cons₂ _

theorem keysNodup_delCell {b : BoardState} (hb : keysNodup b) (k : Coord) :
    keysNodup (delCell b k) :=
  (keys_delCell_sublist b k).nodup hb

theorem delCell_of_not_mem {b : BoardState} {k : Coord} (h : k ∉ keys b) :
    delCell b k = b := by
  induction b with
  | nil => simp [delCell]
  | cons e rest ih =>
    simp only [keys, List.map_cons, List.mem_cons, not_or] at h
    simp only [delCell, if_neg (fun he : e.1 = k => h.1 he.symm)]
    rw [ih (by simpa [keys] using h.2)]

theorem length_delCell_of_present {b : BoardState} {k : Coord}
    (hb : keysNodup b) (h : lookup b k ≠ none) :
    (delCell b k).length + 1 = b.length := by
  induction b with
  | nil => simp [lookup] at h
  | cons e rest ih =>
    have hb' : keysNodup rest := by
      unfold keysNodup keys at hb ⊢
      exact (List.nodup_cons.mp (by simpa [keys] using hb)).2
    by_cases he : e.1 = k
    · simp only [delCell, if_pos he, List.length_cons]
      have hkn : k ∉ keys rest := by
        unfold keysNodup keys at hb
        rw [← he]
        exact (List.nodup_cons.mp (by simpa [keys] using hb)).1
      rw [delCell_of_not_mem hkn]
    · simp only [delCell, if_neg he, List.length_cons]
      have h' : lookup rest k ≠ none := by
        simpa [lookup, if_neg he] using h
      rw [← ih hb' h']

theorem boardInBounds_setCell {b : BoardState} {size : Nat}
    (hb : boardInBounds b size) {k : Coord} (hk : k.1 < size ∧ k.2 < size)
    (c : StoneColor) : boardInBounds (setCell b k c) size := by
  induction b with
  | nil =>
    intro e he
    simp [setCell] at he
    subst he
    exact hk
  | cons f rest ih =>
    intro e he
    by_cases hf : f.1 = k
    · simp only [setCell, if_pos hf, List.mem_cons] at he
      rcases he with he | he
      · subst he; exact hk
      · exact hb e (List.mem_cons_of_mem _ he)
    · simp only [setCell, if_neg hf, List.mem_cons] at he
      rcases he with he | he
      · subst he; exact hb e (List.mem_cons_self _ _)
      · exact ih (fun e' he' => hb e' (List.mem_cons_of_mem _ he')) e he

theorem lookup_delList (b : BoardState) (g : List Coord) (q : Coord) :
    lookup (delList b g) q = if q ∈ g then none else lookup b q := by
  induction g generalizing b with
  | nil => simp [delList]
  | cons k g' ih =>
    show lookup (delList (delCell b k) g') q = _
    rw [ih, lookup_delCell]
    by_cases h1 : q ∈ g'
    · simp [h1]
    · by_cases h2 : q = k
      · simp [h1, h2]
      · simp [h1, h2]

theorem keysNodup_delList {b : BoardState} (hb : keysNodup b)
    (g : List Coord) : keysNodup (delList b g) := by
  induction g generalizing b with
  | nil => exact hb
  | cons k g' ih => exact ih (keysNodup_delCell hb k)

theorem length_delList {b : BoardState} {g : List Coord} (hb : keysNodup b)
    (hg : g.Nodup) (hpres : ∀ k ∈ g, lookup b k ≠ none) :
    (delList b g).length + g.length = b.length := by
  induction g generalizing b with
  | nil => simp [delList]
  | cons k g' ih =>
    have hknot : k ∉ g' := (List.nodup_cons.mp hg).1
    have step : (delList (delCell b k) g').length + g'.length =
        (delCell b k).length := by
      refine ih (keysNodup_delCell hb k) (List.nodup_cons.mp hg).2 ?_
      intro j hj
      rw [lookup_delCell]
      rw [if_neg (fun hjk : j = k => hknot (hjk ▸ hj))]
      exact hpres j (List.mem_cons_of_mem _ hj)
    have hdel : (delCell b k).length + 1 = b.length :=
      length_delCell_of_present hb (hpres k (List.mem_cons_self _ _))
    show (delList (delCell b k) g').length + (g'.length + 1) = b.length
    omega

/-! ### Lemmas about the neighbor list -/

theorem mem_getNeighbors {x y size : Nat} {p : Coord} :
    p ∈ getNeighbors x y size ↔
      (0 < x ∧ p = (x - 1, y)) ∨ (x < size - 1 ∧ p = (x + 1, y)) ∨
      (0 < y ∧ p = (x, y - 1)) ∨ (y < size - 1 ∧ p = (x, y + 1)) := by
  obtain ⟨px, py⟩ := p
  simp only [getNeighbors, List.mem_append, List.mem_singleton, Prod.mk.injEq]
  split_ifs <;> simp_all <;> omega

theorem length_getNeighbors_le (x y size : Nat) :
    (getNeighbors x y size).length ≤ 4 := by
  simp only [getNeighbors, List.length_append]
  split_ifs <;> simp

theorem getNeighbors_inBounds {x y size : Nat} (hx : x < size)
    (hy : y < size) {p : Coord} (hp : p ∈ getNeighbors x y size) :
    p.1 < size ∧ p.2 < size := by
  rw [mem_getNeighbors] at hp
  obtain ⟨px, py⟩ := p
  simp only [Prod.mk.injEq] at hp
  constructor <;> omega

theorem getNeighbors_symm {p q : Coord} {size : Nat} (hp1 : p.1 < size)
    (hp2 : p.2 < size) (hq1 : q.1 < size) (hq2 : q.2 < size) :
    (q ∈ getNeighbors p.1 p.2 size) ↔ (p ∈ getNeighbors q.1 q.2 size) := by
  obtain ⟨px, py⟩ := p
  obtain ⟨qx, qy⟩ := q
  simp only [mem_getNeighbors, Prod.mk.injEq] at *
  omega

/-! ### Correctness of the group search -/

theorem visitFold_spec (b : BoardState) (color : StoneColor) :
    ∀ (ns : List Coord) (vis grp q : List Coord),
    ∃ V L, ns.foldl (visitStep b color) (vis, grp, q) = (V, grp ++ L, q ++ L) ∧
      L.Nodup ∧
      (∀ k, k ∈ L ↔ (k ∉ vis ∧ k ∈ ns ∧ lookup b k = some color)) ∧
      (∀ k, k ∈ V ↔ (k ∈ vis ∨ k ∈ L)) := by
  intro ns
  induction ns with
  | nil =>
    intro vis grp q
    exact ⟨vis, [], by simp, by simp, by simp, by simp⟩
  | cons n ns ih =>
    intro vis grp q
    by_cases hc : lookup b n = some color ∧ n ∉ vis
    · obtain ⟨V, L, hfold, hnd, hmemL, hmemV⟩ := ih (n :: vis) (grp ++ [n]) (q ++ [n])
      have hstep : visitStep b color (vis, grp, q) n =
          (n :: vis, grp ++ [n], q ++ [n]) := by
        simp only [visitStep, if_pos hc]
      refine ⟨V, n :: L, ?_, ?_, ?_, ?_⟩
      · rw [List.foldl_cons, hstep, hfold]
        simp
      · refine List.nodup_cons.mpr ⟨?_, hnd⟩
        intro hn
        exact ((hmemL n).mp hn).1 (List.mem_cons_self _ _)
      · intro k
        constructor
        · intro hk
          rcases List.mem_cons.mp hk with rfl | hk
          · exact ⟨hc.2, List.mem_cons_self _ _, hc.1⟩
          · obtain ⟨h1, h2, h3⟩ := (hmemL k).mp hk
            exact ⟨fun hv => h1 (List.mem_cons_of_mem _ hv),
              List.mem_cons_of_mem _ h2, h3⟩
        · rintro ⟨h1, h2, h3⟩
          rcases List.mem_cons.mp h2 with rfl | h2
          · exact List.mem_cons_self _ _
          · by_cases hkn : k = n
            · subst hkn; exact List.mem_cons_self _ _
            · refine List.mem_cons_of_mem _ ((hmemL k).mpr ⟨?_, h2, h3⟩)
              intro hv
              rcases List.mem_cons.mp hv with h | h
              · exact hkn h
              · exact h1 h
      · intro k
        rw [hmemV k]
        constructor
        · rintro (hv | hl)
          · rcases List.mem_cons.mp hv with rfl | hv
            · exact Or.inr (List.mem_cons_self _ _)
            · exact Or.inl hv
          · exact Or.inr (List.mem_cons_of_mem _ hl)
        · rintro (hv | hl)
          · exact Or.inl (List.mem_cons_of_mem _ hv)
          · rcases List.mem_cons.mp hl with rfl | hl
            · exact Or.inl (List.mem_cons_self _ _)
            · exact Or.inr hl
    · obtain ⟨V, L, hfold, hnd, hmemL, hmemV⟩ := ih vis grp q
      have hstep : visitStep b color (vis, grp, q) n = (vis, grp, q) := by
        simp only [visitStep, if_neg hc]
      refine ⟨V, L, ?_, hnd, ?_, hmemV⟩
      · rw [List.foldl_cons, hstep, hfold]
      · intro k
        rw [hmemL k]
        constructor
        · rintro ⟨h1, h2, h3⟩
          exact ⟨h1, List.mem_cons_of_mem _ h2, h3⟩
        · rintro ⟨h1, h2, h3⟩
          rcases List.mem_cons.mp h2 with rfl | h2
          · exact absurd ⟨h3, h1⟩ hc
          · exact ⟨h1, h2, h3⟩

theorem bfsAux_zero (b : BoardState) (color : StoneColor) (size : Nat)
    (q vis grp : List Coord) : bfsAux b color size 0 q vis grp = grp := rfl

theorem bfsAux_nil (b : BoardState) (color : StoneColor) (size fuel : Nat)
    (vis grp : List Coord) : bfsAux b color size (fuel + 1) [] vis grp = grp :=
  rfl

theorem bfsAux_cons (b : BoardState) (color : StoneColor) (size fuel : Nat)
    (c : Coord) (rest vis grp : List Coord) :
    bfsAux b color size (fuel + 1) (c :: rest) vis grp =
    bfsAux b color size fuel
      ((getNeighbors c.1 c.2 size).foldl (visitStep b color)
        (vis, grp, rest)).2.2
      ((getNeighbors c.1 c.2 size).foldl (visitStep b color)
        (vis, grp, rest)).1
      ((getNeighbors c.1 c.2 size).foldl (visitStep b color)
        (vis, grp, rest)).2.1 := rfl

theorem bfsAux_sound (b : BoardState) (color : StoneColor) (size : Nat)
    (P : Coord → Prop)
    (hP : ∀ c d, P c → canStep b size color c d → P d) :
    ∀ (fuel : Nat) (q vis grp : List Coord), (∀ k ∈ q, k ∈ vis) →
    (∀ k ∈ vis, P k) → (∀ k ∈ grp, P k) →
    ∀ k ∈ bfsAux b color size fuel q vis grp, P k := by
  intro fuel
  induction fuel with
  | zero =>
    intro q vis grp _ _ hgrp k hk
    rw [bfsAux_zero] at hk
    exact hgrp k hk
  | succ fuel ih =>
    intro q vis grp hq hvis hgrp k hk
    cases q with
    | nil =>
      rw [bfsAux_nil] at hk
      exact hgrp k hk
    | cons c rest =>
      obtain ⟨V, L, hfold, _, hmemL, hmemV⟩ :=
        visitFold_spec b color (getNeighbors c.1 c.2 size) vis grp rest
      rw [bfsAux_cons, hfold] at hk
      have hPc : P c := hvis c (hq c (List.mem_cons_self _ _))
      have hPL : ∀ j ∈ L, P j := by
        intro j hj
        obtain ⟨_, h2, h3⟩ := (hmemL j).mp hj
        exact hP c j hPc ⟨h2, h3⟩
      refine ih (rest ++ L) V (grp ++ L) ?_ ?_ ?_ k hk
      · intro j hj
        rcases List.mem_append.mp hj with hj | hj
        · exact (hmemV j).mpr (Or.inl (hq j (List.mem_cons_of_mem _ hj)))
        · exact (hmemV j).mpr (Or.inr hj)
      · intro j hj
        rcases (hmemV j).mp hj with hj | hj
        · exact hvis j hj
        · exact hPL j hj
      · intro j hj
        rcases List.mem_append.mp hj with hj | hj
        · exact hgrp j hj
        · exact hPL j hj

theorem bfsAux_nodup_mono (b : BoardState) (color : StoneColor) (size : Nat) :
    ∀ (fuel : Nat) (q vis grp : List Coord), grp.Nodup →
    (∀ k, k ∈ grp ↔ k ∈ vis) →
    (bfsAux b color size fuel q vis grp).Nodup ∧
    (∀ k ∈ vis, k ∈ bfsAux b color size fuel q vis grp) := by
  intro fuel
  induction fuel with
  | zero =>
    intro q vis grp hnd hgv
    rw [bfsAux_zero]
    exact ⟨hnd, fun k hk => (hgv k).mpr hk⟩
  | succ fuel ih =>
    intro q vis grp hnd hgv
    cases q with
    | nil =>
      rw [bfsAux_nil]
      exact ⟨hnd, fun k hk => (hgv k).mpr hk⟩
    | cons c rest =>
      obtain ⟨V, L, hfold, hLnd, hmemL, hmemV⟩ :=
        visitFold_spec b color (getNeighbors c.1 c.2 size) vis grp rest
      rw [bfsAux_cons, hfold]
      have hnd' : (grp ++ L).Nodup := by
        rw [List.nodup_append]
        refine ⟨hnd, hLnd, ?_⟩
        intro j hj hjL
        exact ((hmemL j).mp hjL).1 ((hgv j).mp hj)
      have hgv' : ∀ k, k ∈ grp ++ L ↔ k ∈ V := by
        intro k
        rw [List.mem_append, hmemV k, hgv k]
      obtain ⟨h1, h2⟩ := ih (rest ++ L) V (grp ++ L) hnd' hgv'
      exact ⟨h1, fun k hk => h2 k ((hmemV k).mpr (Or.inl hk))⟩

theorem bfsAux_closed (b : BoardState) (color : StoneColor) (size : Nat) :
    ∀ (fuel : Nat) (q vis grp : List Coord), (∀ k ∈ q, k ∈ vis) →
    (∀ k, k ∈ grp ↔ k ∈ vis) →
    (∀ k ∈ vis, k ∉ q → ∀ n, canStep b size color k n → n ∈ vis) →
    (q.length + (cand b color vis).card ≤ fuel) →
    ∀ k ∈ bfsAux b color size fuel q vis grp, ∀ n, canStep b size color k n →
      n ∈ bfsAux b color size fuel q vis grp := by
  intro fuel
  induction fuel with
  | zero =>
    intro q vis grp hq hgv hcl hfuel k hk n hn
    have hqnil : q = [] := List.length_eq_zero.mp (by omega)
    subst hqnil
    rw [bfsAux_zero] at hk ⊢
    exact (hgv n).mpr
      (hcl k ((hgv k).mp hk) (List.not_mem_nil k) n hn)
  | succ fuel ih =>
    intro q vis grp hq hgv hcl hfuel k hk n hn
    cases q with
    | nil =>
      rw [bfsAux_nil] at hk ⊢
      exact (hgv n).mpr
        (hcl k ((hgv k).mp hk) (List.not_mem_nil k) n hn)
    | cons c rest =>
      obtain ⟨V, L, hfold, hLnd, hmemL, hmemV⟩ :=
        visitFold_spec b color (getNeighbors c.1 c.2 size) vis grp rest
      rw [bfsAux_cons, hfold] at hk ⊢
      have hq' : ∀ j ∈ rest ++ L, j ∈ V := by
        intro j hj
        rcases List.mem_append.mp hj with hj | hj
        · exact (hmemV j).mpr (Or.inl (hq j (List.mem_cons_of_mem _ hj)))
        · exact (hmemV j).mpr (Or.inr hj)
      have hgv' : ∀ j, j ∈ grp ++ L ↔ j ∈ V := by
        intro j
        rw [List.mem_append, hmemV j, hgv j]
      have hcl' : ∀ j ∈ V, j ∉ rest ++ L →
          ∀ m, canStep b size color j m → m ∈ V := by
        intro j hj hjq m hm
        have hjL : j ∉ L := fun h => hjq (List.mem_append.mpr (Or.inr h))
        have hjvis : j ∈ vis := by
          rcases (hmemV j).mp hj with h | h
          · exact h
          · exact absurd h hjL
        by_cases hjc : j = c
        · subst hjc
          by_cases hmv : m ∈ vis
          · exact (hmemV m).mpr (Or.inl hmv)
          · exact (hmemV m).mpr (Or.inr ((hmemL m).mpr ⟨hmv, hm.1, hm.2⟩))
        · have hjrest : j ∉ rest := fun h =>
            hjq (List.mem_append.mpr (Or.inl h))
          have : j ∉ c :: rest := by
            intro h
            rcases List.mem_cons.mp h with h | h
            · exact hjc h
            · exact hjrest h
          exact (hmemV m).mpr (Or.inl (hcl j hjvis this m hm))
      have hLsub : L.toFinset ⊆ cand b color vis := by
        intro j hj
        rw [List.mem_toFinset] at hj
        obtain ⟨h1, _, h3⟩ := (hmemL j).mp hj
        unfold cand
        rw [Finset.mem_filter]
        exact ⟨List.mem_toFinset.mpr (mem_keys_of_lookup h3), h3, h1⟩
      have hcandV : cand b color V = cand b color vis \ L.toFinset := by
        unfold cand
        ext j
        simp only [Finset.mem_filter, Finset.mem_sdiff, List.mem_toFinset,
          hmemV j]
        tauto
      have hfuel' : (rest ++ L).length + (cand b color V).card ≤ fuel := by
        rw [List.length_append, hcandV,
          Finset.card_sdiff hLsub, List.toFinset_card_of_nodup hLnd]
        have hle : L.length ≤ (cand b color vis).card := by
          rw [← List.toFinset_card_of_nodup hLnd]
          exact Finset.card_le_card hLsub
        simp only [List.length_cons] at hfuel
        omega
      exact ih (rest ++ L) V (grp ++ L) hq' hgv' hcl' hfuel' k hk n hn

theorem getGroup_eq_of_lookup {b : BoardState} {x y : Nat}
    {color : StoneColor} (hc : lookup b (x, y) = some color) (size : Nat) :
    getGroup b x y size =
    some (bfsAux b color size (b.length + 1)
      [(x, y)] [(x, y)] [(x, y)]) := by
  unfold getGroup
  rw [hc]

theorem getGroup_spec {b : BoardState} {x y : Nat} {color : StoneColor}
    (size : Nat) (hc : lookup b (x, y) = some color) :
    ∃ G, getGroup b x y size = some G ∧ G.Nodup ∧
      (∀ k, k ∈ G ↔ reaches b size color (x, y) k) := by
  refine ⟨_, getGroup_eq_of_lookup hc size, ?_, ?_⟩
  · exact (bfsAux_nodup_mono b color size (b.length + 1)
      [(x, y)] [(x, y)] [(x, y)] (List.nodup_singleton _)
      (fun k => Iff.rfl)).1
  · intro k
    constructor
    · intro hk
      refine bfsAux_sound b color size (reaches b size color (x, y))
        (fun c d hc' hs => Relation.ReflTransGen.tail hc' hs)
        (b.length + 1) [(x, y)] [(x, y)] [(x, y)]
        (fun j hj => hj) ?_ ?_ k hk
      · intro j hj
        rw [List.mem_singleton] at hj
        subst hj
        exact Relation.ReflTransGen.refl
      · intro j hj
        rw [List.mem_singleton] at hj
        subst hj
        exact Relation.ReflTransGen.refl
    · intro hr
      have hfuel : ([(x, y)] : List Coord).length +
          (cand b color [(x, y)]).card ≤ b.length + 1 := by
        have h1 : (cand b color [(x, y)]).card ≤ (keys b).toFinset.card :=
          Finset.card_filter_le _ _
        have h2 : (keys b).toFinset.card ≤ (keys b).length :=
          List.toFinset_card_le (keys b)
        have h3 : (keys b).length = b.length := List.length_map _ _
        simp only [List.length_singleton]
        omega
      have hclosed := bfsAux_closed b color size (b.length + 1)
        [(x, y)] [(x, y)] [(x, y)] (fun j hj => hj) (fun j => Iff.rfl)
        (fun j hj hjq => absurd hj hjq) hfuel
      have hstart : (x, y) ∈ bfsAux b color size (b.length + 1)
          [(x, y)] [(x, y)] [(x, y)] :=
        (bfsAux_nodup_mono b color size (b.length + 1)
          [(x, y)] [(x, y)] [(x, y)] (List.nodup_singleton _)
          (fun j => Iff.rfl)).2 (x, y) (List.mem_singleton_self _)
      induction hr with
      | refl => exact hstart
      | tail h1 h2 ih => exact hclosed _ ih _ h2

theorem reaches_color {b : BoardState} {size : Nat} {color : StoneColor}
    {s k : Coord} (hs : lookup b s = some color)
    (h : reaches b size color s k) : lookup b k = some color := by
  induction h with
  | refl => exact hs
  | tail _ h2 _ => exact h2.2

theorem inBounds_of_lookup {b : BoardState} {size : Nat} {k : Coord}
    {c : StoneColor} (hb : boardInBounds b size) (h : lookup b k = some c) :
    k.1 < size ∧ k.2 < size := by
  have hk : k ∈ keys b := mem_keys_of_lookup h
  unfold keys at hk
  obtain ⟨e, he, hek⟩ := List.mem_map.mp hk
  exact hek ▸ hb e he

theorem reaches_symm {b : BoardState} {size : Nat} {color : StoneColor}
    (hb : boardInBounds b size) {u v : Coord}
    (hu : lookup b u = some color) (h : reaches b size color u v) :
    reaches b size color v u := by
  induction h with
  | refl => exact Relation.ReflTransGen.refl
  | tail h1 h2 ih =>
    rename_i m w
    have hm : lookup b m = some color := reaches_color hu h1
    have hmb := inBounds_of_lookup hb hm
    have hwb := inBounds_of_lookup hb h2.2
    have hstep : canStep b size color w m := by
      refine ⟨?_, hm⟩
      exact (getNeighbors_symm hmb.1 hmb.2 hwb.1 hwb.2).mp h2.1
    exact Relation.ReflTransGen.head hstep ih

theorem reaches_comp_eq {b : BoardState} {size : Nat} {color : StoneColor}
    (hb : boardInBounds b size) {u v : Coord}
    (hu : lookup b u = some color) (huv : reaches b size color u v) :
    ∀ k, reaches b size color u k ↔ reaches b size color v k := by
  intro k
  constructor
  · intro h
    exact Relation.ReflTransGen.trans (reaches_symm hb hu huv) h
  · intro h
    exact Relation.ReflTransGen.trans huv h

/-! ### Characterization of the liberty count -/

theorem mem_setAdd (s : List Coord) (k j : Coord) :
    j ∈ setAdd s k ↔ j ∈ s ∨ j = k := by
  unfold setAdd
  split_ifs with h
  · constructor
    · exact Or.inl
    · rintro (hj | rfl)
      · exact hj
      · exact h
  · simp [List.mem_append]

theorem nodup_setAdd {s : List Coord} (h : s.Nodup) (k : Coord) :
    (setAdd s k).Nodup := by
  unfold setAdd
  split_ifs with hk
  · exact h
  · simpa [List.nodup_append] using ⟨h, hk⟩

theorem libFold_inner (board : BoardState) (ns : List Coord) :
    ∀ acc : List Coord, acc.Nodup →
    (ns.foldl (fun acc2 n =>
      if lookup board n = none then setAdd acc2 n else acc2) acc).Nodup ∧
    (∀ k, k ∈ ns.foldl (fun acc2 n =>
      if lookup board n = none then setAdd acc2 n else acc2) acc ↔
      k ∈ acc ∨ (k ∈ ns ∧ lookup board k = none)) := by
  induction ns with
  | nil =>
    intro acc hacc
    exact ⟨hacc, fun k => by simp⟩
  | cons n ns ih =>
    intro acc hacc
    rw [List.foldl_cons]
    by_cases hn : lookup board n = none
    · rw [if_pos hn]
      obtain ⟨h1, h2⟩ := ih (setAdd acc n) (nodup_setAdd hacc n)
      refine ⟨h1, fun k => ?_⟩
      rw [h2 k, mem_setAdd]
      constructor
      · rintro ((hk | rfl) | ⟨hk1, hk2⟩)
        · exact Or.inl hk
        · exact Or.inr ⟨List.mem_cons_self _ _, hn⟩
        · exact Or.inr ⟨List.mem_cons_of_mem _ hk1, hk2⟩
      · rintro (hk | ⟨hk1, hk2⟩)
        · exact Or.inl (Or.inl hk)
        · rcases List.mem_cons.mp hk1 with rfl | hk1
          · exact Or.inl (Or.inr rfl)
          · exact Or.inr ⟨hk1, hk2⟩
    · rw [if_neg hn]
      obtain ⟨h1, h2⟩ := ih acc hacc
      refine ⟨h1, fun k => ?_⟩
      rw [h2 k]
      constructor
      · rintro (hk | ⟨hk1, hk2⟩)
        · exact Or.inl hk
        · exact Or.inr ⟨List.mem_cons_of_mem _ hk1, hk2⟩
      · rintro (hk | ⟨hk1, hk2⟩)
        · exact Or.inl hk
        · rcases List.mem_cons.mp hk1 with rfl | hk1
          · exact absurd hk2 hn
          · exact Or.inr ⟨hk1, hk2⟩

theorem libFold_outer (board : BoardState) (size : Nat) (g : List Coord) :
    ∀ acc : List Coord, acc.Nodup →
    (g.foldl (fun acc key =>
      (getNeighbors key.1 key.2 size).foldl (fun acc2 n =>
        if lookup board n = none then setAdd acc2 n else acc2) acc)
      acc).Nodup ∧
    (∀ k, k ∈ g.foldl (fun acc key =>
      (getNeighbors key.1 key.2 size).foldl (fun acc2 n =>
        if lookup board n = none then setAdd acc2 n else acc2) acc) acc ↔
      k ∈ acc ∨ ∃ m ∈ g, k ∈ getNeighbors m.1 m.2 size ∧
        lookup board k = none) := by
  induction g with
  | nil =>
    intro acc hacc
    exact ⟨hacc, fun k => by simp⟩
  | cons m g' ih =>
    intro acc hacc
    rw [List.foldl_cons]
    obtain ⟨hi1, hi2⟩ := libFold_inner board (getNeighbors m.1 m.2 size)
      acc hacc
    obtain ⟨h1, h2⟩ := ih _ hi1
    refine ⟨h1, fun k => ?_⟩
    rw [h2 k, hi2 k]
    constructor
    · rintro ((hk | ⟨hk1, hk2⟩) | ⟨m', hm', hk1, hk2⟩)
      · exact Or.inl hk
      · exact Or.inr ⟨m, List.mem_cons_self _ _, hk1, hk2⟩
      · exact Or.inr ⟨m', List.mem_cons_of_mem _ hm', hk1, hk2⟩
    · rintro (hk | ⟨m', hm', hk1, hk2⟩)
      · exact Or.inl (Or.inl hk)
      · rcases List.mem_cons.mp hm' with rfl | hm'
        · exact Or.inl (Or.inr ⟨hk1, hk2⟩)
        · exact Or.inr ⟨m', hm', hk1, hk2⟩

theorem countLiberties_eq_card (board : BoardState) (g : List Coord)
    (size : Nat) :
    countLiberties board g size = (libFinset board g.toFinset size).card := by
  unfold countLiberties
  obtain ⟨hnd, hmem⟩ := libFold_outer board size g [] (List.nodup_nil)
  rw [← List.toFinset_card_of_nodup hnd]
  congr 1
  ext k
  simp only [List.mem_toFinset, hmem k, List.not_mem_nil, false_or,
    libFinset, Finset.mem_filter, Finset.mem_biUnion]
  tauto

theorem libFinset_congr {b1 b2 : BoardState} {G : Finset Coord} {size : Nat}
    (h : ∀ m ∈ G, ∀ a ∈ getNeighbors m.1 m.2 size, lookup b1 a = lookup b2 a) :
    libFinset b1 G size = libFinset b2 G size := by
  unfold libFinset
  refine Finset.filter_congr ?_
  intro a ha
  obtain ⟨m, hm, hma⟩ := Finset.mem_biUnion.mp ha
  rw [h m hm a (List.mem_toFinset.mp hma)]

theorem countLiberties_congr {b1 b2 : BoardState} {g : List Coord}
    {size : Nat}
    (h : ∀ m ∈ g, ∀ a ∈ getNeighbors m.1 m.2 size, lookup b1 a = lookup b2 a) :
    countLiberties b1 g size = countLiberties b2 g size := by
  rw [countLiberties_eq_card, countLiberties_eq_card]
  rw [libFinset_congr (fun m hm => h m (List.mem_toFinset.mp hm))]

theorem countLiberties_set_congr {b : BoardState} {g1 g2 : List Coord}
    {size : Nat} (h : g1.toFinset = g2.toFinset) :
    countLiberties b g1 size = countLiberties b g2 size := by
  rw [countLiberties_eq_card, countLiberties_eq_card, h]

/-! ### Stability of groups and liberties under deleting other components -/

theorem getGroup_mem_color {b : BoardState} {x y size : Nat}
    {color : StoneColor} {G : List Coord} (hc : lookup b (x, y) = some color)
    (hG : getGroup b x y size = some G) : ∀ k ∈ G, lookup b k = some color := by
  obtain ⟨G', hG', _, hmem⟩ := getGroup_spec size hc
  rw [hG] at hG'
  injection hG' with hGG
  subst hGG
  intro k hk
  exact reaches_color hc ((hmem k).mp hk)

theorem reaches_restrict {P B : BoardState} {size : Nat} {opp : StoneColor}
    {n : Coord}
    (hagree : ∀ k, lookup B k = lookup P k ∨
      (lookup B k = none ∧ ¬ reaches P size opp n k)) :
    ∀ k, reaches B size opp n k ↔ reaches P size opp n k := by
  intro k
  constructor
  · intro h
    induction h with
    | refl => exact Relation.ReflTransGen.refl
    | tail h1 h2 ih =>
      refine Relation.ReflTransGen.tail ih ⟨h2.1, ?_⟩
      rcases hagree _ with he | ⟨hn, _⟩
      · rw [← he]
        exact h2.2
      · rw [h2.2] at hn
        cases hn
  · intro h
    induction h with
    | refl => exact Relation.ReflTransGen.refl
    | tail h1 h2 ih =>
      rename_i m w
      have hw : reaches P size opp n w := Relation.ReflTransGen.tail h1 h2
      refine Relation.ReflTransGen.tail ih ⟨h2.1, ?_⟩
      rcases hagree w with he | ⟨_, hnr⟩
      · rw [he]
        exact h2.2
      · exact absurd hw hnr

theorem getGroup_restrict {P B : BoardState} {size : Nat} {opp : StoneColor}
    {n : Coord}
    (hagree : ∀ k, lookup B k = lookup P k ∨
      (lookup B k = none ∧ ¬ reaches P size opp n k))
    (hBn : lookup B n = some opp) :
    ∃ GB, getGroup B n.1 n.2 size = some GB ∧ GB.Nodup ∧
      (∀ k, k ∈ GB ↔ reaches P size opp n k) := by
  obtain ⟨GB, hGB, hnd, hmem⟩ := getGroup_spec size
    (show lookup B (n.1, n.2) = some opp from hBn)
  refine ⟨GB, hGB, hnd, fun k => ?_⟩
  rw [hmem k]
  exact reaches_restrict hagree k

theorem capInv_lookup_P {size : Nat} {opp : StoneColor} {P B : BoardState}
    (hinv : CapInv size opp P B) {n : Coord} (hBn : lookup B n = some opp) :
    lookup P n = some opp := by
  rcases hinv n with he | ⟨hnone, _, _, _⟩
  · rw [← he]
    exact hBn
  · rw [hBn] at hnone
    cases hnone

theorem capInv_hagree {size : Nat} {opp : StoneColor} {P B : BoardState}
    (hP : boardInBounds P size) (hinv : CapInv size opp P B) {n : Coord}
    (hBn : lookup B n = some opp) :
    ∀ q, lookup B q = lookup P q ∨
      (lookup B q = none ∧ lookup P q = some opp ∧
        ¬ reaches P size opp n q) := by
  have hPn : lookup P n = some opp := capInv_lookup_P hinv hBn
  intro q
  rcases hinv q with he | ⟨h1, h2, h3, _⟩
  · exact Or.inl he
  · refine Or.inr ⟨h1, h2, fun hr => ?_⟩
    have hqn : reaches P size opp q n := reaches_symm hP hPn hr
    have := h3 n hqn
    rw [hBn] at this
    cases this

/-! ### The capture loop of the live move applier -/

theorem captureDel_fold (g : List Coord) :
    ∀ (B : BoardState) (k : Nat),
    g.foldl (fun a k => (delCell a.1 k, a.2 + 1)) (B, k) =
      (delList B g, k + g.length) := by
  induction g with
  | nil => intro B k; simp [delList]
  | cons j g' ih =>
    intro B k
    rw [List.foldl_cons]
    show g'.foldl _ (delCell B j, k + 1) = _
    rw [ih (delCell B j) (k + 1)]
    show (delList (delCell B j) g', k + 1 + g'.length) = _
    refine Prod.ext ?_ ?_
    · rfl
    · simp only [List.length_cons]
      omega

theorem captureStep_skip {size : Nat} {opp : StoneColor} {B : BoardState}
    {k : Nat} {n : Coord} (h : ¬ lookup B n = some opp) :
    captureStep size opp (B, k) n = (B, k) := by
  unfold captureStep
  rw [if_neg h]

theorem captureStep_noCap {size : Nat} {opp : StoneColor} {B : BoardState}
    {k : Nat} {n : Coord} {g : List Coord} (h : lookup B n = some opp)
    (hg : getGroup B n.1 n.2 size = some g)
    (hl : ¬ countLiberties B g size = 0) :
    captureStep size opp (B, k) n = (B, k) := by
  unfold captureStep
  rw [if_pos h, hg]
  simp only [if_neg hl]

theorem captureStep_cap {size : Nat} {opp : StoneColor} {B : BoardState}
    {k : Nat} {n : Coord} {g : List Coord} (h : lookup B n = some opp)
    (hg : getGroup B n.1 n.2 size = some g)
    (hl : countLiberties B g size = 0) :
    captureStep size opp (B, k) n = (delList B g, k + g.length) := by
  unfold captureStep
  rw [if_pos h, hg]
  simp only [if_pos hl]
  exact captureDel_fold g B k

theorem captureFold_spec (size : Nat) (opp : StoneColor) (P : BoardState)
    (hP : boardInBounds P size) :
    ∀ (ns : List Coord) (B : BoardState) (k : Nat), CapInv size opp P B →
      keysNodup B →
      CapInv size opp P (ns.foldl (captureStep size opp) (B, k)).1 ∧
      keysNodup (ns.foldl (captureStep size opp) (B, k)).1 ∧
      (ns.foldl (captureStep size opp) (B, k)).2 +
        (ns.foldl (captureStep size opp) (B, k)).1.length = k + B.length ∧
      (∀ q, lookup B q = none →
        lookup (ns.foldl (captureStep size opp) (B, k)).1 q = none) ∧
      (∀ n ∈ ns, lookup P n = some opp →
        (∀ g, getGroup P n.1 n.2 size = some g →
          countLiberties P g size = 0) →
        ∀ s, reaches P size opp n s →
          lookup (ns.foldl (captureStep size opp) (B, k)).1 s = none) := by
  intro ns
  induction ns with
  | nil =>
    intro B k hinv hnd
    refine ⟨hinv, hnd, by simp, fun q hq => hq,
      fun n hn => absurd hn (List.not_mem_nil n)⟩
  | cons n ns ih =>
    intro B k hinv hnd
    by_cases hBn : lookup B n = some opp
    · have hPn : lookup P n = some opp := capInv_lookup_P hinv hBn
      have hagree := capInv_hagree hP hinv hBn
      have hagree' : ∀ q, lookup B q = lookup P q ∨
          (lookup B q = none ∧ ¬ reaches P size opp n q) :=
        fun q => (hagree q).imp id (fun h => ⟨h.1, h.2.2⟩)
      obtain ⟨GB, hGB, hGBnd, hGBmem⟩ := getGroup_restrict hagree' hBn
      obtain ⟨GP, hGP, _, hGPmem⟩ := getGroup_spec size
        (show lookup P (n.1, n.2) = some opp from hPn)
      have hsets : GB.toFinset = GP.toFinset := by
        ext j
        rw [List.mem_toFinset, List.mem_toFinset, hGBmem j, hGPmem j]
      have hGBcolorB : ∀ j ∈ GB, lookup B j = some opp :=
        getGroup_mem_color hBn hGB
      have hlib_eq : countLiberties B GB size = countLiberties P GP size := by
        have h1 : countLiberties B GB size = countLiberties P GB size := by
          refine countLiberties_congr ?_
          intro m hm a ha
          rcases hagree a with he | ⟨_, h2, h3⟩
          · exact he
          · exact absurd
              (Relation.ReflTransGen.tail ((hGBmem m).mp hm) ⟨ha, h2⟩) h3
        rw [h1]
        exact countLiberties_set_congr hsets
      by_cases hzero : countLiberties P GP size = 0
      · have hstep : captureStep size opp (B, k) n =
            (delList B GB, k + GB.length) :=
          captureStep_cap hBn hGB (by rw [hlib_eq]; exact hzero)
        have hpres : ∀ j ∈ GB, lookup B j ≠ none := by
          intro j hj
          rw [hGBcolorB j hj]
          exact fun h => Option.noConfusion h
        have hlenDel : (delList B GB).length + GB.length = B.length :=
          length_delList hnd hGBnd hpres
        have hndDel : keysNodup (delList B GB) := keysNodup_delList hnd GB
        have hinvDel : CapInv size opp P (delList B GB) := by
          intro q
          by_cases hq : q ∈ GB
          · have hreach : reaches P size opp n q := (hGBmem q).mp hq
            refine Or.inr ⟨?_, reaches_color hPn hreach, ?_, ?_⟩
            · rw [lookup_delList, if_pos hq]
            · intro r hr
              have hnr : reaches P size opp n r :=
                Relation.ReflTransGen.trans hreach hr
              rw [lookup_delList, if_pos ((hGBmem r).mpr hnr)]
            · intro g hg
              have hPq : lookup P q = some opp := reaches_color hPn hreach
              obtain ⟨Gq, hGq, _, hGqmem⟩ := getGroup_spec size
                (show lookup P (q.1, q.2) = some opp from hPq)
              rw [hg] at hGq
              injection hGq with he
              subst he
              have hcomp := reaches_comp_eq hP hPn hreach
              have hgGP : g.toFinset = GP.toFinset := by
                ext j
                rw [List.mem_toFinset, List.mem_toFinset, hGqmem j, hGPmem j]
                exact (hcomp j).symm
              rw [countLiberties_set_congr hgGP]
              exact hzero
          · rcases hinv q with he | ⟨h1, h2, h3, h4⟩
            · left
              rw [lookup_delList, if_neg hq]
              exact he
            · refine Or.inr ⟨?_, h2, ?_, h4⟩
              · rw [lookup_delList, if_neg hq]
                exact h1
              · intro r hr
                rw [lookup_delList]
                by_cases hrG : r ∈ GB
                · rw [if_pos hrG]
                · rw [if_neg hrG]
                  exact h3 r hr
        obtain ⟨c1, c2, c3, c4, c5⟩ :=
          ih (delList B GB) (k + GB.length) hinvDel hndDel
        rw [List.foldl_cons, hstep]
        refine ⟨c1, c2, by omega, ?_, ?_⟩
        · intro q hq
          refine c4 q ?_
          rw [lookup_delList]
          by_cases hqG : q ∈ GB
          · rw [if_pos hqG]
          · rw [if_neg hqG]
            exact hq
        · intro m hm hPm hz s hs
          rcases List.mem_cons.mp hm with rfl | hm
          · refine c4 s ?_
            rw [lookup_delList, if_pos ((hGBmem s).mpr hs)]
          · exact c5 m hm hPm hz s hs
      · have hstep : captureStep size opp (B, k) n = (B, k) :=
          captureStep_noCap hBn hGB (by rw [hlib_eq]; exact hzero)
        obtain ⟨c1, c2, c3, c4, c5⟩ := ih B k hinv hnd
        rw [List.foldl_cons, hstep]
        refine ⟨c1, c2, c3, c4, ?_⟩
        intro m hm hPm hz s hs
        rcases List.mem_cons.mp hm with rfl | hm
        · exact absurd (hz GP hGP) hzero
        · exact c5 m hm hPm hz s hs
    · have hstep : captureStep size opp (B, k) n = (B, k) :=
        captureStep_skip hBn
      obtain ⟨c1, c2, c3, c4, c5⟩ := ih B k hinv hnd
      rw [List.foldl_cons, hstep]
      refine ⟨c1, c2, c3, c4, ?_⟩
      intro m hm hPm hz s hs
      rcases List.mem_cons.mp hm with rfl | hm
      · rcases hinv m with he | ⟨_, _, h3, _⟩
        · exact absurd (he.trans hPm) hBn
        · exact c4 s (h3 s hs)
      · exact c5 m hm hPm hz s hs

/-! ### Claim theorems -/

/-- C2: when a stone is placed on an empty cell, every 4-directional opponent
neighbor whose group has zero liberties in the post-placement position is
removed in its entirety by the capture loop, the move's captured count equals
the total number of stones removed, and in particular a Black move filling
the last liberty of an adjacent single White stone removes that stone and
reports a captured count of 1. -/
theorem c2_capture_resolution (size : Nat) (b : BoardState) (c : StoneColor)
    (x y : Nat) (hb : boardInBounds b size) (hk : keysNodup b)
    (hx : x < size) (hy : y < size) (_he : lookup b (x, y) = none) :
    (∀ n ∈ getNeighbors x y size,
      lookup (setCell b (x, y) c) n = some (opponentOf c) →
      ∀ g, getGroup (setCell b (x, y) c) n.1 n.2 size = some g →
      countLiberties (setCell b (x, y) c) g size = 0 →
      ∀ q ∈ g,
        lookup ((getNeighbors x y size).foldl
          (captureStep size (opponentOf c))
          (setCell b (x, y) c, 0)).1 q = none) ∧
    ((getNeighbors x y size).foldl (captureStep size (opponentOf c))
      (setCell b (x, y) c, 0)).2 +
      ((getNeighbors x y size).foldl (captureStep size (opponentOf c))
        (setCell b (x, y) c, 0)).1.length =
      (setCell b (x, y) c).length ∧
    handleBoardClick 9
      ⟨[((0, 0), StoneColor.white), ((0, 1), StoneColor.black)], [],
        ⟨0, 0⟩, StoneColor.black⟩ 1 0 =
      Except.ok ⟨[((0, 1), StoneColor.black), ((1, 0), StoneColor.black)],
        [⟨1, 0, StoneColor.black, 1⟩], ⟨1, 0⟩, StoneColor.white⟩ := by
  have hPb : boardInBounds (setCell b (x, y) c) size :=
    boardInBounds_setCell hb ⟨hx, hy⟩ c
  have hPk : keysNodup (setCell b (x, y) c) := keysNodup_setCell hk (x, y) c
  have hinv0 : CapInv size (opponentOf c) (setCell b (x, y) c)
      (setCell b (x, y) c) := fun q => Or.inl rfl
  obtain ⟨c1, c2, c3, c4, c5⟩ := captureFold_spec size (opponentOf c)
    (setCell b (x, y) c) hPb (getNeighbors x y size)
    (setCell b (x, y) c) 0 hinv0 hPk
  refine ⟨?_, by omega, by rfl⟩
  intro n hn hopp g hg hlib q hq
  obtain ⟨G', hG', _, hmem⟩ := getGroup_spec size
    (show lookup (setCell b (x, y) c) (n.1, n.2) = some (opponentOf c)
      from hopp)
  rw [hg] at hG'
  injection hG' with hgG
  subst hgG
  refine c5 n hn hopp ?_ q ((hmem q).mp hq)
  intro g' hg'
  rw [hg] at hg'
  injection hg' with hgg
  subst hgg
  exact hlib

/-- Witness for C2: on a 9 by 9 board holding a White stone at the origin and
a Black stone at (0,1), clicking Black at (1,0) satisfies the hypotheses, and
the captured count plus the size of the resulting board equals the size of
the post-placement board (one White stone was removed). -/
theorem c2_capture_resolution_witness :
    lookup [((0, 0), StoneColor.white), ((0, 1), StoneColor.black)]
      (1, 0) = none ∧
    ((getNeighbors 1 0 9).foldl (captureStep 9 (opponentOf .black))
      (setCell [((0, 0), StoneColor.white), ((0, 1), StoneColor.black)]
        (1, 0) .black, 0)).2 +
      ((getNeighbors 1 0 9).foldl (captureStep 9 (opponentOf .black))
        (setCell [((0, 0), StoneColor.white), ((0, 1), StoneColor.black)]
          (1, 0) .black, 0)).1.length =
      (setCell [((0, 0), StoneColor.white), ((0, 1), StoneColor.black)]
        (1, 0) .black).length :=
  ⟨by decide,
    (c2_capture_resolution 9
      [((0, 0), StoneColor.white), ((0, 1), StoneColor.black)] .black 1 0
      (by unfold boardInBounds; decide) (by unfold keysNodup; decide)
      (by decide) (by decide) (by decide)).2.1⟩

/-- C3: a move on an empty cell whose own group has zero liberties after the
capture loop is rejected as a suicide move, and the caller-visible recorder
state (board, moves, captures, turn) is exactly the pre-move state: neither
the tentative placement nor any capture performed during resolution
persists. -/
theorem c3_suicide_rollback (size : Nat) (s : RecorderState) (x y : Nat)
    (he : lookup s.board (x, y) = none)
    (hs : suicideAfter size
      ((getNeighbors x y size).foldl (captureStep size (opponentOf s.turn))
        (setCell s.board (x, y) s.turn, 0)).1 x y = true) :
    handleBoardClick size s x y = .error .suicideMove ∧
    applyClick size s x y = s := by
  have h1 : handleBoardClick size s x y = .error .suicideMove := by
    unfold handleBoardClick
    rw [if_neg (by simp [he])]
    exact if_pos hs
  refine ⟨h1, ?_⟩
  unfold applyClick
  rw [h1]

/-- Witness for C3: White clicking the corner surrounded by two Black stones
is a suicide, and the recorder state is untouched. -/
theorem c3_suicide_rollback_witness :
    lookup [((0, 1), StoneColor.black), ((1, 0), StoneColor.black)]
      (0, 0) = none ∧
    (handleBoardClick 9
      ⟨[((0, 1), StoneColor.black), ((1, 0), StoneColor.black)], [],
        ⟨0, 0⟩, StoneColor.white⟩ 0 0 = .error .suicideMove ∧
     applyClick 9
      ⟨[((0, 1), StoneColor.black), ((1, 0), StoneColor.black)], [],
        ⟨0, 0⟩, StoneColor.white⟩ 0 0 =
      ⟨[((0, 1), StoneColor.black), ((1, 0), StoneColor.black)], [],
        ⟨0, 0⟩, StoneColor.white⟩) :=
  ⟨by decide,
    c3_suicide_rollback 9
      ⟨[((0, 1), StoneColor.black), ((1, 0), StoneColor.black)], [],
        ⟨0, 0⟩, StoneColor.white⟩ 0 0 (by decide) (by decide)⟩

/-- C4: a move whose target cell is already occupied fails with the
occupied-cell condition and leaves the whole recorder state unchanged. -/
theorem c4_occupied (size : Nat) (s : RecorderState) (x y : Nat)
    (ho : lookup s.board (x, y) ≠ none) :
    handleBoardClick size s x y = .error .occupiedCell ∧
    applyClick size s x y = s := by
  have h1 : handleBoardClick size s x y = .error .occupiedCell := by
    unfold handleBoardClick
    rw [if_pos ho]
  refine ⟨h1, ?_⟩
  unfold applyClick
  rw [h1]

/-- Witness for C4: clicking on the occupied origin is rejected and the state
is unchanged. -/
theorem c4_occupied_witness :
    lookup [((0, 0), StoneColor.black)] (0, 0) ≠ none ∧
    (handleBoardClick 9
      ⟨[((0, 0), StoneColor.black)], [], ⟨0, 0⟩, StoneColor.white⟩ 0 0 =
      .error .occupiedCell ∧
     applyClick 9
      ⟨[((0, 0), StoneColor.black)], [], ⟨0, 0⟩, StoneColor.white⟩ 0 0 =
      ⟨[((0, 0), StoneColor.black)], [], ⟨0, 0⟩, StoneColor.white⟩) :=
  ⟨by decide,
    c4_occupied 9 ⟨[((0, 0), StoneColor.black)], [], ⟨0, 0⟩, StoneColor.white⟩
      0 0 (by decide)⟩

/-- C5: a click whose grid coordinate lies outside the board on either axis
is stopped by the bounds guard: it is reported as out of bounds and causes no
state change. -/
theorem c5_out_of_bounds (size : Nat) (s : RecorderState) (xg yg : Int)
    (h : ¬ (0 ≤ xg ∧ xg < size ∧ 0 ≤ yg ∧ yg < size)) :
    dispatchClick size s xg yg = .error .outOfBounds ∧
    dispatchState size s xg yg = s := by
  have h1 : dispatchClick size s xg yg = .error .outOfBounds := by
    unfold dispatchClick
    rw [if_neg h]
  refine ⟨h1, ?_⟩
  unfold dispatchState
  rw [h1]

/-- Witness for C5: a click that rounds to a negative column is rejected with
no state change. -/
theorem c5_out_of_bounds_witness :
    ¬ (0 ≤ (-1 : Int) ∧ (-1 : Int) < (9 : Nat) ∧ 0 ≤ (0 : Int) ∧
        (0 : Int) < (9 : Nat)) ∧
    (dispatchClick 9 ⟨[], [], ⟨0, 0⟩, StoneColor.black⟩ (-1) 0 =
      .error .outOfBounds ∧
     dispatchState 9 ⟨[], [], ⟨0, 0⟩, StoneColor.black⟩ (-1) 0 =
      ⟨[], [], ⟨0, 0⟩, StoneColor.black⟩) :=
  ⟨by decide,
    c5_out_of_bounds 9 ⟨[], [], ⟨0, 0⟩, StoneColor.black⟩ (-1) 0 (by decide)⟩

/-! ### The replay engine -/

theorem opponentOf_ne (c : StoneColor) : opponentOf c ≠ c := by
  cases c <;> simp [opponentOf]

theorem replayCap_skip {size : Nat} {color : StoneColor} {B : BoardState}
    {t : CaptureTally} {n : Coord}
    (h : ¬ lookup B n = some (opponentOf color)) :
    replayCap size color (B, t) n = (B, t) := by
  unfold replayCap
  rw [if_neg h]

theorem replayCap_noCap {size : Nat} {color : StoneColor} {B : BoardState}
    {t : CaptureTally} {n : Coord} {g : List Coord}
    (h : lookup B n = some (opponentOf color))
    (hg : getGroup B n.1 n.2 size = some g)
    (hl : ¬ countLiberties B g size = 0) :
    replayCap size color (B, t) n = (B, t) := by
  unfold replayCap
  rw [if_pos h, hg]
  simp only [if_neg hl]

theorem replayCap_cap {size : Nat} {color : StoneColor} {B : BoardState}
    {t : CaptureTally} {n : Coord} {g : List Coord}
    (h : lookup B n = some (opponentOf color))
    (hg : getGroup B n.1 n.2 size = some g)
    (hl : countLiberties B g size = 0) :
    replayCap size color (B, t) n = (delList B g, addT t color g.length) := by
  unfold replayCap
  rw [if_pos h, hg]
  simp only [if_pos hl]
  rfl

theorem replayCapFold_lookup (size : Nat) (color : StoneColor) :
    ∀ (ns : List Coord) (B : BoardState) (t : CaptureTally) (p : Coord),
    lookup B p = some color →
    lookup ((ns.foldl (replayCap size color) (B, t)).1) p = some color := by
  intro ns
  induction ns with
  | nil => intro B t p hp; exact hp
  | cons n ns ih =>
    intro B t p hp
    rw [List.foldl_cons]
    by_cases h1 : lookup B n = some (opponentOf color)
    · cases hg : getGroup B n.1 n.2 size with
      | none =>
        exfalso
        unfold getGroup at hg
        rw [show lookup B (n.1, n.2) = some (opponentOf color) from h1] at hg
        cases hg
      | some g =>
        by_cases hl : countLiberties B g size = 0
        · rw [replayCap_cap h1 hg hl]
          refine ih _ _ p ?_
          rw [lookup_delList]
          rw [if_neg (fun hpg : p ∈ g => ?_)]
          · exact hp
          · have := getGroup_mem_color h1 hg p hpg
            rw [hp] at this
            injection this with hco
            exact opponentOf_ne color hco.symm
        · rw [replayCap_noCap h1 hg hl]
          exact ih B t p hp
    · rw [replayCap_skip h1]
      exact ih B t p hp

theorem replayStep_lookup_self (size : Nat) (acc : BoardState × CaptureTally)
    (m : Move) :
    lookup (replayStep size acc m).1 (m.x, m.y) = some m.color := by
  unfold replayStep
  refine replayCapFold_lookup size m.color _ _ _ _ ?_
  rw [lookup_setCell]
  simp

/-- C10: the replay fold is total and performs no legality check: the stone of
the final move is always written, overwriting an occupied cell (two moves at
the origin leave the second stone) and accepting suicide placements (the
surrounded White stone stays on the board). -/
theorem c10_replay_no_checks :
    (∀ (ms : List Move) (m : Move) (size : Nat),
      lookup (replayGame (ms ++ [m]) size).1 (m.x, m.y) = some m.color) ∧
    replayGame [⟨0, 0, StoneColor.black, 0⟩, ⟨0, 0, StoneColor.white, 0⟩] 9 =
      ([((0, 0), StoneColor.white)], ⟨0, 0⟩) ∧
    replayGame [⟨0, 1, StoneColor.black, 0⟩, ⟨1, 0, StoneColor.black, 0⟩,
        ⟨0, 0, StoneColor.white, 0⟩] 9 =
      ([((0, 1), StoneColor.black), ((1, 0), StoneColor.black),
        ((0, 0), StoneColor.white)], ⟨0, 0⟩) := by
  refine ⟨?_, by rfl, by rfl⟩
  intro ms m size
  unfold replayGame
  rw [List.foldl_append, List.foldl_cons, List.foldl_nil]
  exact replayStep_lookup_self size _ m

/-- C7: the liberty count of a group is the number of distinct empty cells
4-adjacent to at least one member (a cell adjacent to several members counts
once); the clipped neighbor list of an in-bounds cell never leaves the board,
so out-of-board coordinates are never counted; an isolated stone has at most
4 liberties and at most 2 in the corner. -/
theorem c7_liberties (board : BoardState) (g : List Coord) (size x y : Nat) :
    countLiberties board g size = (libFinset board g.toFinset size).card ∧
    (x < size → y < size →
      ∀ p ∈ getNeighbors x y size, p.1 < size ∧ p.2 < size) ∧
    countLiberties board [(x, y)] size ≤ 4 ∧
    countLiberties board [(0, 0)] size ≤ 2 := by
  refine ⟨countLiberties_eq_card board g size, ?_, ?_, ?_⟩
  · intro hx hy p hp
    exact getNeighbors_inBounds hx hy hp
  · rw [countLiberties_eq_card]
    calc (libFinset board [(x, y)].toFinset size).card
        ≤ ([(x, y)].toFinset.biUnion fun m =>
            (getNeighbors m.1 m.2 size).toFinset).card :=
          Finset.card_filter_le _ _
      _ ≤ (getNeighbors x y size).toFinset.card := by
          refine Finset.card_le_card ?_
          intro a ha
          obtain ⟨m, hm, hma⟩ := Finset.mem_biUnion.mp ha
          simp only [List.toFinset_cons, List.toFinset_nil,
            insert_emptyc_eq, Finset.mem_singleton] at hm
          subst hm
          exact hma
      _ ≤ (getNeighbors x y size).length := List.toFinset_card_le _
      _ ≤ 4 := length_getNeighbors_le x y size
  · rw [countLiberties_eq_card]
    calc (libFinset board [(0, 0)].toFinset size).card
        ≤ ([(0, 0)].toFinset.biUnion fun m =>
            (getNeighbors m.1 m.2 size).toFinset).card :=
          Finset.card_filter_le _ _
      _ ≤ (getNeighbors 0 0 size).toFinset.card := by
          refine Finset.card_le_card ?_
          intro a ha
          obtain ⟨m, hm, hma⟩ := Finset.mem_biUnion.mp ha
          simp only [List.toFinset_cons, List.toFinset_nil,
            insert_emptyc_eq, Finset.mem_singleton] at hm
          subst hm
          exact hma
      _ ≤ (getNeighbors 0 0 size).length := List.toFinset_card_le _
      _ ≤ 2 := by
          simp only [getNeighbors, List.length_append]
          split_ifs <;> simp_all

/-- Witness for C7: evaluating the neighbor in-bounds clause at the origin of
the 9 by 9 board. -/
theorem c7_liberties_witness :
    (0 : Nat) < 9 ∧ ∀ p ∈ getNeighbors 0 0 9, p.1 < 9 ∧ p.2 < 9 :=
  ⟨by decide,
    (c7_liberties [((0, 0), StoneColor.black)] [(0, 0)] 9 0 0).2.1
      (by decide) (by decide)⟩

/-! ### The drill diff -/

theorem mem_of_lookup {b : BoardState} {k : Coord} {c : StoneColor}
    (h : lookup b k = some c) : (k, c) ∈ b := by
  induction b with
  | nil => simp [lookup] at h
  | cons e rest ih =>
    simp only [lookup] at h
    by_cases he : e.1 = k
    · rw [if_pos he] at h
      injection h with h2
      have : e = (k, c) := Prod.ext he h2
      rw [← this]
      exact List.mem_cons_self _ _
    · rw [if_neg he] at h
      exact List.mem_cons_of_mem _ (ih h)

theorem lookup_eq_of_mem_nodup {t : BoardState} {k : Coord} {c : StoneColor}
    (hT : keysNodup t) (h : (k, c) ∈ t) : lookup t k = some c := by
  induction t with
  | nil => simp at h
  | cons e rest ih =>
    have hT0 : (e.1 :: keys rest).Nodup := hT
    have hT1 := List.nodup_cons.mp hT0
    rcases List.mem_cons.mp h with rfl | h
    · simp [lookup]
    · simp only [lookup]
      by_cases he : e.1 = k
      · exfalso
        have hk : k ∈ keys rest := List.mem_map.mpr ⟨(k, c), h, rfl⟩
        rw [he] at hT1
        exact hT1.1 hk
      · rw [if_neg he]
        exact ih hT1.2 h

theorem exists_lookup_of_mem_keys {b : BoardState} {k : Coord}
    (h : k ∈ keys b) : ∃ c, lookup b k = some c := by
  induction b with
  | nil => simp [keys] at h
  | cons e rest ih =>
    by_cases he : e.1 = k
    · refine ⟨e.2, ?_⟩
      simp only [lookup]
      rw [if_pos he]
    · have h0 : k ∈ e.1 :: keys rest := h
      rcases List.mem_cons.mp h0 with h1 | h1
      · exact absurd h1.symm he
      · obtain ⟨c, hc⟩ := ih h1
        refine ⟨c, ?_⟩
        simp only [lookup]
        rw [if_neg he]
        exact hc

theorem cmFold_mem (actual : BoardState) :
    ∀ (tl : BoardState) (acc : List Coord × List Coord),
    (∀ k, k ∈ (tl.foldl (fun (acc : List Coord × List Coord) e =>
        if lookup actual e.1 = some e.2 then (acc.1 ++ [e.1], acc.2)
        else (acc.1, acc.2 ++ [e.1])) acc).1 ↔
      k ∈ acc.1 ∨ ∃ e ∈ tl, e.1 = k ∧ lookup actual k = some e.2) ∧
    (∀ k, k ∈ (tl.foldl (fun (acc : List Coord × List Coord) e =>
        if lookup actual e.1 = some e.2 then (acc.1 ++ [e.1], acc.2)
        else (acc.1, acc.2 ++ [e.1])) acc).2 ↔
      k ∈ acc.2 ∨ ∃ e ∈ tl, e.1 = k ∧ ¬ lookup actual k = some e.2) := by
  intro tl
  induction tl with
  | nil =>
    intro acc
    constructor <;> intro k <;> simp
  | cons e tl ih =>
    intro acc
    rw [List.foldl_cons]
    by_cases hcond : lookup actual e.1 = some e.2
    · rw [if_pos hcond]
      obtain ⟨ih1, ih2⟩ := ih (acc.1 ++ [e.1], acc.2)
      constructor
      · intro k
        rw [ih1 k]
        simp only [List.mem_append, List.mem_singleton]
        constructor
        · rintro ((hk | rfl) | ⟨e', he', hk1, hk2⟩)
          · exact Or.inl hk
          · exact Or.inr ⟨e, List.mem_cons_self _ _, rfl, hcond⟩
          · exact Or.inr ⟨e', List.mem_cons_of_mem _ he', hk1, hk2⟩
        · rintro (hk | ⟨e', he', hk1, hk2⟩)
          · exact Or.inl (Or.inl hk)
          · rcases List.mem_cons.mp he' with rfl | he'
            · exact Or.inl (Or.inr hk1.symm)
            · exact Or.inr ⟨e', he', hk1, hk2⟩
      · intro k
        rw [ih2 k]
        constructor
        · rintro (hk | ⟨e', he', hk1, hk2⟩)
          · exact Or.inl hk
          · exact Or.inr ⟨e', List.mem_cons_of_mem _ he', hk1, hk2⟩
        · rintro (hk | ⟨e', he', hk1, hk2⟩)
          · exact Or.inl hk
          · rcases List.mem_cons.mp he' with rfl | he'
            · rw [← hk1] at hk2
              exact absurd hcond hk2
            · exact Or.inr ⟨e', he', hk1, hk2⟩
    · rw [if_neg hcond]
      obtain ⟨ih1, ih2⟩ := ih (acc.1, acc.2 ++ [e.1])
      constructor
      · intro k
        rw [ih1 k]
        constructor
        · rintro (hk | ⟨e', he', hk1, hk2⟩)
          · exact Or.inl hk
          · exact Or.inr ⟨e', List.mem_cons_of_mem _ he', hk1, hk2⟩
        · rintro (hk | ⟨e', he', hk1, hk2⟩)
          · exact Or.inl hk
          · rcases List.mem_cons.mp he' with rfl | he'
            · rw [← hk1] at hk2
              exact absurd hk2 hcond
            · exact Or.inr ⟨e', he', hk1, hk2⟩
      · intro k
        rw [ih2 k]
        simp only [List.mem_append, List.mem_singleton]
        constructor
        · rintro ((hk | rfl) | ⟨e', he', hk1, hk2⟩)
          · exact Or.inl hk
          · exact Or.inr ⟨e, List.mem_cons_self _ _, rfl, hcond⟩
          · exact Or.inr ⟨e', List.mem_cons_of_mem _ he', hk1, hk2⟩
        · rintro (hk | ⟨e', he', hk1, hk2⟩)
          · exact Or.inl (Or.inl hk)
          · rcases List.mem_cons.mp he' with rfl | he'
            · exact Or.inl (Or.inr hk1.symm)
            · exact Or.inr ⟨e', he', hk1, hk2⟩

theorem exFold_mem (target actual : BoardState) :
    ∀ (al : BoardState) (acc : List Coord) (k : Coord),
    k ∈ al.foldl (fun (acc : List Coord) e =>
      match lookup target e.1 with
      | none => acc ++ [e.1]
      | some _ =>
        if lookup actual e.1 ≠ lookup target e.1 then acc ++ [e.1]
        else acc) acc ↔
    k ∈ acc ∨ ∃ e ∈ al, e.1 = k ∧
      (lookup target k = none ∨ lookup actual k ≠ lookup target k) := by
  intro al
  induction al with
  | nil => intro acc k; simp
  | cons e al ih =>
    intro acc k
    rw [List.foldl_cons]
    cases ht : lookup target e.1 with
    | none =>
      dsimp only
      rw [ih]
      simp only [List.mem_append, List.mem_singleton]
      constructor
      · rintro ((hk | rfl) | ⟨e', he', hk1, hk2⟩)
        · exact Or.inl hk
        · exact Or.inr ⟨e, List.mem_cons_self _ _, rfl, Or.inl ht⟩
        · exact Or.inr ⟨e', List.mem_cons_of_mem _ he', hk1, hk2⟩
      · rintro (hk | ⟨e', he', hk1, hk2⟩)
        · exact Or.inl (Or.inl hk)
        · rcases List.mem_cons.mp he' with rfl | he'
          · exact Or.inl (Or.inr hk1.symm)
          · exact Or.inr ⟨e', he', hk1, hk2⟩
    | some c =>
      dsimp only
      by_cases hne : lookup actual e.1 ≠ some c
      · rw [if_pos hne, ih]
        simp only [List.mem_append, List.mem_singleton]
        constructor
        · rintro ((hk | rfl) | ⟨e', he', hk1, hk2⟩)
          · exact Or.inl hk
          · refine Or.inr ⟨e, List.mem_cons_self _ _, rfl, Or.inr ?_⟩
            rw [ht]
            exact hne
          · exact Or.inr ⟨e', List.mem_cons_of_mem _ he', hk1, hk2⟩
        · rintro (hk | ⟨e', he', hk1, hk2⟩)
          · exact Or.inl (Or.inl hk)
          · rcases List.mem_cons.mp he' with rfl | he'
            · exact Or.inl (Or.inr hk1.symm)
            · exact Or.inr ⟨e', he', hk1, hk2⟩
      · rw [if_neg hne, ih]
        push_neg at hne
        constructor
        · rintro (hk | ⟨e', he', hk1, hk2⟩)
          · exact Or.inl hk
          · exact Or.inr ⟨e', List.mem_cons_of_mem _ he', hk1, hk2⟩
        · rintro (hk | ⟨e', he', hk1, hk2⟩)
          · exact Or.inl hk
          · rcases List.mem_cons.mp he' with rfl | he'
            · rcases hk2 with hk2 | hk2
              · rw [← hk1, ht] at hk2
                cases hk2
              · rw [← hk1, ht] at hk2
                rw [hne] at hk2
                exact absurd rfl hk2
            · exact Or.inr ⟨e', he', hk1, hk2⟩

theorem checkDrill_correct_mem {target actual : BoardState}
    (hT : keysNodup target) (k : Coord) :
    k ∈ (checkDrill target actual).correct ↔
      ∃ c, lookup target k = some c ∧ lookup actual k = some c := by
  simp only [checkDrill]
  rw [(cmFold_mem actual target ([], [])).1 k]
  simp only [List.not_mem_nil, false_or]
  constructor
  · rintro ⟨e, he, hk1, hk2⟩
    refine ⟨e.2, ?_, hk2⟩
    have hek : e = (k, e.2) := Prod.ext hk1 rfl
    rw [hek] at he
    exact lookup_eq_of_mem_nodup hT he
  · rintro ⟨c, htk, hak⟩
    exact ⟨(k, c), mem_of_lookup htk, rfl, hak⟩

theorem checkDrill_missing_mem {target actual : BoardState}
    (hT : keysNodup target) (k : Coord) :
    k ∈ (checkDrill target actual).missing ↔
      ∃ c, lookup target k = some c ∧ ¬ lookup actual k = some c := by
  simp only [checkDrill]
  rw [(cmFold_mem actual target ([], [])).2 k]
  simp only [List.not_mem_nil, false_or]
  constructor
  · rintro ⟨e, he, hk1, hk2⟩
    refine ⟨e.2, ?_, hk2⟩
    have hek : e = (k, e.2) := Prod.ext hk1 rfl
    rw [hek] at he
    exact lookup_eq_of_mem_nodup hT he
  · rintro ⟨c, htk, hak⟩
    exact ⟨(k, c), mem_of_lookup htk, rfl, hak⟩

theorem checkDrill_extra_mem (target actual : BoardState) (k : Coord) :
    k ∈ (checkDrill target actual).extra ↔
      lookup actual k ≠ none ∧ lookup actual k ≠ lookup target k := by
  simp only [checkDrill]
  rw [exFold_mem target actual actual [] k]
  simp only [List.not_mem_nil, false_or]
  constructor
  · rintro ⟨e, he, hk1, hcond⟩
    have hkk : k ∈ keys actual := List.mem_map.mpr ⟨e, he, hk1⟩
    obtain ⟨c, hac⟩ := exists_lookup_of_mem_keys hkk
    refine ⟨by rw [hac]; exact fun h => Option.noConfusion h, ?_⟩
    rcases hcond with hcond | hcond
    · rw [hac, hcond]
      exact fun h => Option.noConfusion h
    · exact hcond
  · rintro ⟨hne, hneq⟩
    cases hac : lookup actual k with
    | none => exact absurd hac hne
    | some c =>
      exact ⟨(k, c), mem_of_lookup hac, rfl, Or.inr (hac ▸ hneq)⟩

/-- C8: the drill diff classifies each target coordinate as correct exactly
when the actual board holds the same color there, and as missing otherwise
(absent or wrong color); each actual coordinate absent from the target or
holding a different color is classified as extra; consequently a wrong-color
cell appears in both missing and extra, as in the two concrete examples. -/
theorem c8_diff_classification (target actual : BoardState)
    (hT : keysNodup target) :
    (∀ k, k ∈ (checkDrill target actual).correct ↔
      ∃ c, lookup target k = some c ∧ lookup actual k = some c) ∧
    (∀ k, k ∈ (checkDrill target actual).missing ↔
      ∃ c, lookup target k = some c ∧ ¬ lookup actual k = some c) ∧
    (∀ k, k ∈ (checkDrill target actual).extra ↔
      lookup actual k ≠ none ∧ lookup actual k ≠ lookup target k) ∧
    checkDrill [((0, 0), StoneColor.black)] [((0, 0), StoneColor.white)] =
      ⟨[], [(0, 0)], [(0, 0)]⟩ ∧
    checkDrill [((0, 0), StoneColor.black)]
      [((0, 0), StoneColor.black), ((1, 1), StoneColor.white)] =
      ⟨[(0, 0)], [], [(1, 1)]⟩ :=
  ⟨checkDrill_correct_mem hT, checkDrill_missing_mem hT,
    checkDrill_extra_mem target actual, by decide, by decide⟩

/-- Witness for C8: instantiating the missing clause at the wrong-color
example. -/
theorem c8_diff_classification_witness :
    keysNodup [((0, 0), StoneColor.black)] ∧
    ((0, 0) ∈ (checkDrill [((0, 0), StoneColor.black)]
        [((0, 0), StoneColor.white)]).missing ↔
      ∃ c, lookup [((0, 0), StoneColor.black)] (0, 0) = some c ∧
        ¬ lookup [((0, 0), StoneColor.white)] (0, 0) = some c) :=
  ⟨by unfold keysNodup; decide,
    (c8_diff_classification [((0, 0), StoneColor.black)]
      [((0, 0), StoneColor.white)] (by unfold keysNodup; decide)).2.1 (0, 0)⟩

/-- Counterexample to C9 as stated: with target Black at the origin and
actual White there, the origin lies in both the missing and the extra lists,
so the three diff lists are not pairwise disjoint. -/
theorem c9_disjoint_counterexample :
    (0, 0) ∈ (checkDrill [((0, 0), StoneColor.black)]
      [((0, 0), StoneColor.white)]).missing ∧
    (0, 0) ∈ (checkDrill [((0, 0), StoneColor.black)]
      [((0, 0), StoneColor.white)]).extra ∧
    ¬ (∀ k ∈ (checkDrill [((0, 0), StoneColor.black)]
        [((0, 0), StoneColor.white)]).missing,
        k ∉ (checkDrill [((0, 0), StoneColor.black)]
          [((0, 0), StoneColor.white)]).extra) := by
  refine ⟨by decide, by decide, fun h => h (0, 0) (by decide) (by decide)⟩

/-- C9 amended: the correct list is disjoint from both the missing and the
extra lists, and missing and extra intersect exactly at the coordinates
occupied in both boards with mismatched colors. -/
theorem c9_amended_disjointness (target actual : BoardState)
    (hT : keysNodup target) :
    (∀ k ∈ (checkDrill target actual).correct,
      k ∉ (checkDrill target actual).missing) ∧
    (∀ k ∈ (checkDrill target actual).correct,
      k ∉ (checkDrill target actual).extra) ∧
    (∀ k, (k ∈ (checkDrill target actual).missing ∧
        k ∈ (checkDrill target actual).extra) ↔
      ∃ c c', lookup target k = some c ∧ lookup actual k = some c' ∧
        c ≠ c') := by
  refine ⟨?_, ?_, ?_⟩
  · intro k hk hm
    obtain ⟨c, h1, h2⟩ := (checkDrill_correct_mem hT k).mp hk
    obtain ⟨c', h3, h4⟩ := (checkDrill_missing_mem hT k).mp hm
    rw [h1] at h3
    injection h3 with h5
    subst h5
    exact h4 h2
  · intro k hk he
    obtain ⟨c, h1, h2⟩ := (checkDrill_correct_mem hT k).mp hk
    obtain ⟨_, h4⟩ := (checkDrill_extra_mem target actual k).mp he
    rw [h1, h2] at h4
    exact h4 rfl
  · intro k
    constructor
    · rintro ⟨hm, he⟩
      obtain ⟨c, h1, h2⟩ := (checkDrill_missing_mem hT k).mp hm
      obtain ⟨h3, _⟩ := (checkDrill_extra_mem target actual k).mp he
      cases hac : lookup actual k with
      | none => exact absurd hac h3
      | some c' =>
        refine ⟨c, c', h1, rfl, ?_⟩
        intro hcc
        subst hcc
        rw [hac] at h2
        exact h2 rfl
    · rintro ⟨c, c', h1, h2, h3⟩
      constructor
      · refine (checkDrill_missing_mem hT k).mpr ⟨c, h1, ?_⟩
        rw [h2]
        exact fun h => h3 (Option.some.inj h).symm
      · refine (checkDrill_extra_mem target actual k).mpr ⟨?_, ?_⟩
        · rw [h2]
          exact fun h => Option.noConfusion h
        · rw [h1, h2]
          exact fun h => h3 (Option.some.inj h).symm

/-- Witness for the amended C9: at the wrong-color example the missing and
extra lists share the origin because both boards hold a stone there with
different colors. -/
theorem c9_amended_disjointness_witness :
    keysNodup [((0, 0), StoneColor.black)] ∧
    (((0, 0) ∈ (checkDrill [((0, 0), StoneColor.black)]
        [((0, 0), StoneColor.white)]).missing ∧
      (0, 0) ∈ (checkDrill [((0, 0), StoneColor.black)]
        [((0, 0), StoneColor.white)]).extra) ↔
      ∃ c c', lookup [((0, 0), StoneColor.black)] (0, 0) = some c ∧
        lookup [((0, 0), StoneColor.white)] (0, 0) = some c' ∧ c ≠ c') :=
  ⟨by unfold keysNodup; decide,
    (c9_amended_disjointness [((0, 0), StoneColor.black)]
      [((0, 0), StoneColor.white)] (by unfold keysNodup; decide)).2.2 (0, 0)⟩

/-! ### Refinement of the live recorder by the replay engine -/

theorem addT_zero (t : CaptureTally) (c : StoneColor) : addT t c 0 = t := by
  cases c <;> simp [addT]

theorem addT_addT (t : CaptureTally) (c : StoneColor) (a b : Nat) :
    addT (addT t c a) c b = addT t c (a + b) := by
  cases c <;> simp [addT, Nat.add_assoc]

theorem capFold_pair (size : Nat) (color : StoneColor) :
    ∀ (ns : List Coord) (B : BoardState) (k : Nat) (t : CaptureTally),
    ∃ B' d,
      ns.foldl (captureStep size (opponentOf color)) (B, k) = (B', k + d) ∧
      ns.foldl (replayCap size color) (B, t) = (B', addT t color d) := by
  intro ns
  induction ns with
  | nil =>
    intro B k t
    exact ⟨B, 0, by simp, by simp [addT_zero]⟩
  | cons n ns ih =>
    intro B k t
    rw [List.foldl_cons, List.foldl_cons]
    by_cases h1 : lookup B n = some (opponentOf color)
    · cases hg : getGroup B n.1 n.2 size with
      | none =>
        rw [getGroup_eq_of_lookup
          (show lookup B (n.1, n.2) = some (opponentOf color) from h1)
          size] at hg
        cases hg
      | some g =>
        by_cases hl : countLiberties B g size = 0
        · rw [captureStep_cap h1 hg hl, replayCap_cap h1 hg hl]
          obtain ⟨B', d, hL, hR⟩ :=
            ih (delList B g) (k + g.length) (addT t color g.length)
          refine ⟨B', g.length + d, ?_, ?_⟩
          · rw [hL]
            exact Prod.ext rfl (by omega)
          · rw [hR]
            exact Prod.ext rfl (addT_addT t color g.length d)
        · rw [captureStep_noCap h1 hg hl, replayCap_noCap h1 hg hl]
          exact ih B k t
    · rw [captureStep_skip h1, replayCap_skip h1]
      exact ih B k t

theorem handleBoardClick_ok {size : Nat} {s s' : RecorderState} {x y : Nat}
    (h : handleBoardClick size s x y = .ok s') :
    lookup s.board (x, y) = none ∧
    s'.board = ((getNeighbors x y size).foldl
      (captureStep size (opponentOf s.turn))
      (setCell s.board (x, y) s.turn, 0)).1 ∧
    s'.moves = s.moves ++ [⟨x, y, s.turn,
      ((getNeighbors x y size).foldl (captureStep size (opponentOf s.turn))
        (setCell s.board (x, y) s.turn, 0)).2⟩] ∧
    s'.captures = addT s.captures s.turn
      ((getNeighbors x y size).foldl (captureStep size (opponentOf s.turn))
        (setCell s.board (x, y) s.turn, 0)).2 ∧
    s'.turn = opponentOf s.turn := by
  unfold handleBoardClick at h
  by_cases ho : lookup s.board (x, y) ≠ none
  · rw [if_pos ho] at h
    cases h
  · rw [if_neg ho] at h
    push_neg at ho
    dsimp only at h
    by_cases hs : suicideAfter size
        ((getNeighbors x y size).foldl (captureStep size (opponentOf s.turn))
          (setCell s.board (x, y) s.turn, 0)).1 x y = true
    · rw [if_pos hs] at h
      cases h
    · rw [if_neg hs] at h
      injection h with h'
      subst h'
      refine ⟨ho, rfl, rfl, ?_, rfl⟩
      dsimp only
      by_cases hpos : 0 < ((getNeighbors x y size).foldl
          (captureStep size (opponentOf s.turn))
          (setCell s.board (x, y) s.turn, 0)).2
      · rw [if_pos hpos]
      · rw [if_neg hpos]
        have : ((getNeighbors x y size).foldl
            (captureStep size (opponentOf s.turn))
            (setCell s.board (x, y) s.turn, 0)).2 = 0 := by omega
        rw [this, addT_zero]

theorem Replays_step {size : Nat} {s s' : RecorderState} {x y : Nat}
    (hrep : Replays size s) (h : handleBoardClick size s x y = .ok s') :
    Replays size s' := by
  obtain ⟨_, hb, hm, hc, _⟩ := handleBoardClick_ok h
  obtain ⟨hr1, hr2⟩ := hrep
  obtain ⟨B', d, hL, hR⟩ := capFold_pair size s.turn (getNeighbors x y size)
    (setCell s.board (x, y) s.turn) 0 s.captures
  constructor
  · rw [hm]
    unfold replayGame at hr1 ⊢
    rw [List.foldl_append, hr1, List.foldl_cons, List.foldl_nil]
    unfold replayStep
    dsimp only
    rw [hR, hb, hc, hL]
    exact Prod.ext rfl (by rw [Nat.zero_add])
  · rw [hm, hc]
    unfold tallyOfMoves at hr2 ⊢
    rw [List.foldl_append, hr2, List.foldl_cons, List.foldl_nil]

theorem Replays_run (size : Nat) :
    ∀ (cs : List Coord) (s s' : RecorderState), Replays size s →
    applyClicks size s cs = some s' → Replays size s' := by
  intro cs
  induction cs with
  | nil =>
    intro s s' h ha
    injection ha with ha
    subst ha
    exact h
  | cons c cs ih =>
    intro s s' h ha
    unfold applyClicks at ha
    cases hh : handleBoardClick size s c.1 c.2 with
    | ok s1 =>
      rw [hh] at ha
      dsimp only at ha
      exact ih s1 s' (Replays_step h hh) ha
    | error e =>
      rw [hh] at ha
      cases ha

/-- C1: for every board size and every click sequence accepted in order by
the live move applier, replaying the recorded move list from the empty board
reproduces exactly the live Position and Capture Tally, and the tally equals
the sum of each move's captured count grouped by the mover's color. -/
theorem c1_replay_refines_live (size : Nat) (clicks : List Coord)
    (s : RecorderState)
    (h : applyClicks size initialState clicks = some s) :
    replayGame s.moves size = (s.board, s.captures) ∧
    tallyOfMoves s.moves = s.captures :=
  Replays_run size clicks initialState s ⟨rfl, rfl⟩ h

/-- Witness for C1: a three-move game on the 2 by 2 board in which Black's
last move captures one White stone; the replay of the recorded moves equals
the live state. -/
theorem c1_replay_refines_live_witness :
    applyClicks 2 initialState [(0, 0), (1, 0), (1, 1)] =
      some ⟨[((0, 0), StoneColor.black), ((1, 1), StoneColor.black)],
        [⟨0, 0, StoneColor.black, 0⟩, ⟨1, 0, StoneColor.white, 0⟩,
         ⟨1, 1, StoneColor.black, 1⟩], ⟨1, 0⟩, StoneColor.white⟩ ∧
    (replayGame [⟨0, 0, StoneColor.black, 0⟩, ⟨1, 0, StoneColor.white, 0⟩,
        ⟨1, 1, StoneColor.black, 1⟩] 2 =
      ([((0, 0), StoneColor.black), ((1, 1), StoneColor.black)], ⟨1, 0⟩) ∧
     tallyOfMoves [⟨0, 0, StoneColor.black, 0⟩, ⟨1, 0, StoneColor.white, 0⟩,
        ⟨1, 1, StoneColor.black, 1⟩] = ⟨1, 0⟩) :=
  ⟨by rfl,
    c1_replay_refines_live 2 [(0, 0), (1, 0), (1, 1)]
      ⟨[((0, 0), StoneColor.black), ((1, 1), StoneColor.black)],
        [⟨0, 0, StoneColor.black, 0⟩, ⟨1, 0, StoneColor.white, 0⟩,
         ⟨1, 1, StoneColor.black, 1⟩], ⟨1, 0⟩, StoneColor.white⟩ (by rfl)⟩

/-- C6: undoing the last move of any accepted click run recomputes, through
the replay engine, exactly the Position that existed immediately before the
dropped move was applied; since the run is arbitrary this holds at every
prefix length. -/
theorem c6_undo_recovers_previous (size : Nat) (pre : List Coord) (c : Coord)
    (u t : RecorderState)
    (hu : applyClicks size initialState pre = some u)
    (ht : handleBoardClick size u c.1 c.2 = .ok t) :
    (undoLastMove size t).board = u.board := by
  have hrepU : Replays size u := Replays_run size pre initialState u
    ⟨rfl, rfl⟩ hu
  obtain ⟨_, _, hm, _, _⟩ := handleBoardClick_ok ht
  have hne : ¬ t.moves = [] := by simp [hm]
  unfold undoLastMove
  rw [if_neg hne]
  dsimp only
  have hdrop : t.moves.dropLast = u.moves := by
    rw [hm]
    exact List.dropLast_concat
  rw [hdrop, hrepU.1]

/-- Witness for C6: after three accepted moves on the 2 by 2 board (the last
one a capture), undo restores the board after the first two moves. -/
theorem c6_undo_recovers_previous_witness :
    applyClicks 2 initialState [(0, 0), (1, 0)] =
      some ⟨[((0, 0), StoneColor.black), ((1, 0), StoneColor.white)],
        [⟨0, 0, StoneColor.black, 0⟩, ⟨1, 0, StoneColor.white, 0⟩],
        ⟨0, 0⟩, StoneColor.black⟩ ∧
    (undoLastMove 2 (applyClick 2
      ⟨[((0, 0), StoneColor.black), ((1, 0), StoneColor.white)],
        [⟨0, 0, StoneColor.black, 0⟩, ⟨1, 0, StoneColor.white, 0⟩],
        ⟨0, 0⟩, StoneColor.black⟩ 1 1)).board =
      [((0, 0), StoneColor.black), ((1, 0), StoneColor.white)] := by
  refine ⟨by rfl, ?_⟩
  have h := c6_undo_recovers_previous 2 [(0, 0), (1, 0)] (1, 1)
    ⟨[((0, 0), StoneColor.black), ((1, 0), StoneColor.white)],
      [⟨0, 0, StoneColor.black, 0⟩, ⟨1, 0, StoneColor.white, 0⟩],
      ⟨0, 0⟩, StoneColor.black⟩
    (applyClick 2
      ⟨[((0, 0), StoneColor.black), ((1, 0), StoneColor.white)],
        [⟨0, 0, StoneColor.black, 0⟩, ⟨1, 0, StoneColor.white, 0⟩],
        ⟨0, 0⟩, StoneColor.black⟩ 1 1)
    (by rfl) (by rfl)
  exact h
